import Mathlib

/-! Verification of the balance-settlement engine of the EvenSteven shared-expense
tracker, a shallow embedding of `src/utils/balanceCalculator.ts`.

Modelling conventions:
* JavaScript numbers are modelled as exact rationals (`ℚ`).  The arithmetic the
  engine performs (division of an amount by a share count, accumulation,
  rounding to two decimals via `Math.round(x * 100) / 100` and
  `parseFloat(x.toFixed(2))`, comparisons against the epsilon `0.01`) is
  modelled exactly over `ℚ`.
* A member identifier is a JavaScript string, modelled as its list of
  characters; the JS `<` comparison on strings is lexicographic comparison of
  code units, modelled by `idLt` below (identifiers used by the application are
  plain BMP text, where code-unit order and scalar-value order agree).
* A JS `Map` is modelled as an association list in insertion order: `Map.set`
  on a present key updates it in place, on an absent key appends it at the end,
  exactly as the iteration order of a JS `Map` behaves.
* The `while` loop of `minimizeTransactions` is modelled by the recursive
  `settleGo` with an iteration budget (fuel) of `debtors.length +
  creditors.length`; every iteration of the source loop advances at least one
  of the two indices, so the budget is never exhausted (this is proved as the
  termination claim).
-/

unseal Rat.mul Rat.add Rat.sub Rat.inv Rat.ofScientific

namespace BalanceCalc

/-- A member identifier: a JS string, as its list of characters. -/
abbrev MemberId := List Char

/-- Lexicographic code-unit comparison, the JS `<` on strings. -/
def idLt : MemberId → MemberId → Bool
  | _, [] => false
  | [], _ :: _ => true
  | a :: as, b :: bs =>
    if a.toNat < b.toNat then true
    else if b.toNat < a.toNat then false
    else idLt as bs

/-- An expense record (`Expense` in `src/types`): `amount` is split equally
among `sharedWith`, fronted by `paidBy`. -/
structure Expense where
  amount : ℚ
  paidBy : MemberId
  sharedWith : List MemberId
deriving DecidableEq, Repr

/-- A payment record (`Payment` in `src/types`): `from` paid `to` the amount. -/
structure Payment where
  amount : ℚ
  «from» : MemberId
  «to» : MemberId
deriving DecidableEq, Repr

/-- A directed pairwise balance: `from` owes `to` the amount. -/
structure Balance where
  «from» : MemberId
  «to» : MemberId
  amount : ℚ
deriving DecidableEq, Repr

/-- A suggested settling transaction: `from` pays `to` the amount. -/
structure Settlement where
  «from» : MemberId
  «to» : MemberId
  amount : ℚ
deriving DecidableEq, Repr

/-- The JS `Map<string, number>`, as an association list in insertion order. -/
abbrev KVMap := List (MemberId × ℚ)

/-- First-match lookup, `Map.get`. -/
def lookup (k : MemberId) : KVMap → Option ℚ
  | [] => none
  | (k₁, v) :: rest => if k₁ = k then some v else lookup k rest

/-- The read-modify-write `map.set(key, (map.get(key) || 0) + d)` used by both
components: update the key in place if present, append it otherwise. -/
def mapAdd : KVMap → MemberId → ℚ → KVMap
  | [], k, d => [(k, d)]
  | (k₁, v) :: rest, k, d =>
    if k₁ = k then (k₁, v + d) :: rest else (k₁, v) :: mapAdd rest k d

/-- The pair key `` `${lo}-${hi}` ``. -/
def mkKey (lo hi : MemberId) : MemberId := lo ++ '-' :: hi

/-- JS `String.prototype.split('-')`. -/
def splitDash : List Char → List (List Char)
  | [] => [[]]
  | c :: rest =>
    if c = '-' then [] :: splitDash rest
    else
      match splitDash rest with
      | [] => [[c]]
      | seg :: segs => (c :: seg) :: segs

/-- Rounding to 2 decimals: `Math.round(q * 100) / 100`, which is also
`parseFloat(q.toFixed(2))` for the positive amounts the minimizer emits
(`Math.round` rounds half toward positive infinity, which is
`⌊x + 1/2⌋`). -/
def round2 (q : ℚ) : ℚ := Rat.divInt (q * 100 + 1/2).floor 100

/-- The per-expense accumulation loop body of `calculateBalances`
(lines 6–23): each beneficiary other than the payer owes the payer one equal
share; the share is accumulated into the canonical pair key with a sign that
encodes direction (positive: the lexicographically lower member owes the
higher one). -/
def applyExpense (m : KVMap) (e : Expense) : KVMap :=
  let amountPerPerson := e.amount / (e.sharedWith.length : ℚ)
  e.sharedWith.foldl
    (fun acc memberId =>
      if memberId = e.paidBy then acc
      else
        if idLt memberId e.paidBy then
          mapAdd acc (mkKey memberId e.paidBy) amountPerPerson
        else
          mapAdd acc (mkKey e.paidBy memberId) (-amountPerPerson))
    m

/-- The per-payment accumulation loop body of `calculateBalances`
(lines 25–36): a payment cancels debt, so it is accumulated with the sign
opposite to an expense in the same direction. -/
def applyPayment (m : KVMap) (p : Payment) : KVMap :=
  if idLt p.«from» p.«to» then mapAdd m (mkKey p.«from» p.«to») (-p.amount)
  else mapAdd m (mkKey p.«to» p.«from») p.amount

/-- The output conversion of `calculateBalances` (lines 38–49): round the pair
total to 2 decimals, drop it if the rounded absolute value is below `0.01`,
otherwise emit a directed balance whose endpoints are the first two
`'-'`-separated segments of the key. -/
def emitBalance (kv : MemberId × ℚ) : Option Balance :=
  let roundedAmount := round2 kv.2
  if 0.01 ≤ |roundedAmount| then
    let parts := splitDash kv.1
    let id1 := parts.getD 0 []
    let id2 := parts.getD 1 []
    if 0 < roundedAmount then some ⟨id1, id2, |roundedAmount|⟩
    else some ⟨id2, id1, |roundedAmount|⟩
  else none

/-- The function `calculateBalances(expenses, payments)`. -/
def calculateBalances (expenses : List Expense) (payments : List Payment) :
    List Balance :=
  let netBalances :=
    payments.foldl applyPayment (expenses.foldl applyExpense [])
  netBalances.filterMap emitBalance

/-- Step 1 of `minimizeTransactions` (lines 55–60): each member's net scalar
position, `-amount` where the member is `from` and `+amount` where it is
`to`. -/
def netMapOf (balances : List Balance) : KVMap :=
  balances.foldl
    (fun m b => mapAdd (mapAdd m b.«from» (-b.amount)) b.«to» b.amount) []

/-- Lines 65–71: members with net below `-0.01` become debtors, with their
magnitude. -/
def debtorsOf (m : KVMap) : List (MemberId × ℚ) :=
  m.filterMap fun kv =>
    if kv.2 < -0.01 then some (kv.1, |kv.2|) else none

/-- Lines 65–71: members with net above `0.01` (the `else if` branch) become
creditors. -/
def creditorsOf (m : KVMap) : List (MemberId × ℚ) :=
  m.filterMap fun kv =>
    if kv.2 < -0.01 then none
    else if 0.01 < kv.2 then some (kv.1, kv.2) else none

/-- One insertion step of the stable descending-by-amount sort
`arr.sort((a, b) => b.amount - a.amount)`: a later element is placed after
every earlier element of equal or larger amount. -/
def insertDesc (x : MemberId × ℚ) : List (MemberId × ℚ) → List (MemberId × ℚ)
  | [] => [x]
  | y :: ys => if y.2 < x.2 then x :: y :: ys else y :: insertDesc x ys

/-- Stable sort, descending by amount (JS `Array.prototype.sort` is stable). -/
def sortDesc (l : List (MemberId × ℚ)) : List (MemberId × ℚ) :=
  l.foldl (fun acc x => insertDesc x acc) []

/-- The two-pointer greedy matching loop (lines 80–96).  `fuel` is an
iteration budget; the loop body is exactly the source's: transfer
`min(debtor.amount, creditor.amount)`, emit it rounded to 2 decimals, and
advance each side whose remainder fell below `0.01`.  When
`dAmt ≤ cAmt` the debtor's remainder is `0 < 0.01`, so the debtor always
advances there; symmetrically for the creditor in the other branch. -/
def settleGo : Nat → List (MemberId × ℚ) → List (MemberId × ℚ) → List Settlement
  | _, [], _ => []
  | _, _, [] => []
  | 0, _ :: _, _ :: _ => []
  | fuel + 1, (dId, dAmt) :: ds, (cId, cAmt) :: cs =>
    let amount := min dAmt cAmt
    let s : Settlement := ⟨dId, cId, round2 amount⟩
    if dAmt ≤ cAmt then
      if cAmt - amount < 0.01 then s :: settleGo fuel ds cs
      else s :: settleGo fuel ds ((cId, cAmt - amount) :: cs)
    else
      if dAmt - amount < 0.01 then s :: settleGo fuel ds cs
      else s :: settleGo fuel ((dId, dAmt - amount) :: ds) cs

/-- The function `minimizeTransactions(balances)`, with the iteration budget
`debtors.length + creditors.length` that the loop never exhausts. -/
def minimizeTransactions (balances : List Balance) : List Settlement :=
  let netAmounts := netMapOf balances
  let debtors := sortDesc (debtorsOf netAmounts)
  let creditors := sortDesc (creditorsOf netAmounts)
  settleGo (debtors.length + creditors.length) debtors creditors

/-- The loop of `settleGo` with an explicit out-of-fuel signal: `none` when the
budget is exhausted while both lists are still nonempty. -/
def settleGoOpt : Nat → List (MemberId × ℚ) → List (MemberId × ℚ) →
    Option (List Settlement)
  | _, [], _ => some []
  | _, _, [] => some []
  | 0, _ :: _, _ :: _ => none
  | fuel + 1, (dId, dAmt) :: ds, (cId, cAmt) :: cs =>
    let amount := min dAmt cAmt
    let s : Settlement := ⟨dId, cId, round2 amount⟩
    if dAmt ≤ cAmt then
      if cAmt - amount < 0.01 then (settleGoOpt fuel ds cs).map (s :: ·)
      else (settleGoOpt fuel ds ((cId, cAmt - amount) :: cs)).map (s :: ·)
    else
      if dAmt - amount < 0.01 then (settleGoOpt fuel ds cs).map (s :: ·)
      else (settleGoOpt fuel ((dId, dAmt - amount) :: ds) cs).map (s :: ·)

/-- Reading a Settlement back as a Payment record (same fields), for the
round-trip property. -/
def settlementToPayment (s : Settlement) : Payment :=
  ⟨s.amount, s.«from», s.«to»⟩

/-- A member's net position as computed by step 1 of the minimizer (0 for a
member the balance list never mentions). -/
def netOf (balances : List Balance) (m : MemberId) : ℚ :=
  (lookup m (netMapOf balances)).getD 0

/-- Sum of settlement amounts directed away from a member. -/
def outSum (settlements : List Settlement) (m : MemberId) : ℚ :=
  (settlements.map fun s => if s.«from» = m then s.amount else 0).sum

/-- Sum of settlement amounts directed toward a member. -/
def inSum (settlements : List Settlement) (m : MemberId) : ℚ :=
  (settlements.map fun s => if s.«to» = m then s.amount else 0).sum

/-- Signed contribution of one key to an association list sum. -/
def keySum (l : List (MemberId × ℚ)) (m : MemberId) : ℚ :=
  (l.map fun kv => if kv.1 = m then kv.2 else 0).sum

/-- Sum of all values of an association list. -/
def valSum (l : List (MemberId × ℚ)) : ℚ := (l.map Prod.snd).sum

/-- An exact multiple of `0.01`: the amounts that survive 2-decimal rounding. -/
def isCents (q : ℚ) : Prop := ∃ k : ℤ, q = (k : ℚ) / 100

theorem round2_eq (q : ℚ) : round2 q = ((⌊q * 100 + 1/2⌋ : ℤ) : ℚ) / 100 := by
  rw [round2, Rat.divInt_eq_div, Rat.floor_def', Rat.floor_def]
  norm_num

theorem eps_eq : (0.01 : ℚ) = 1/100 := by norm_num

theorem isCents_round2 (q : ℚ) : isCents (round2 q) :=
  ⟨⌊q * 100 + 1/2⌋, round2_eq q⟩

theorem round2_of_isCents {q : ℚ} (h : isCents q) : round2 q = q := by
  obtain ⟨k, rfl⟩ := h
  rw [round2_eq]
  have : (k : ℚ) / 100 * 100 + 1/2 = k + 1/2 := by ring
  rw [this]
  have hfl : ⌊(k : ℚ) + 1/2⌋ = k := by
    rw [Int.floor_eq_iff]
    constructor
    · linarith
    · linarith
  rw [hfl]

theorem round2_mono {p q : ℚ} (h : p ≤ q) : round2 p ≤ round2 q := by
  rw [round2_eq, round2_eq]
  have h1 : ⌊p * 100 + 1/2⌋ ≤ ⌊q * 100 + 1/2⌋ := Int.floor_le_floor (by linarith)
  have h2 : ((⌊p * 100 + 1/2⌋ : ℤ) : ℚ) ≤ ((⌊q * 100 + 1/2⌋ : ℤ) : ℚ) := by
    exact_mod_cast h1
  linarith

theorem round2_ge_eps {q : ℚ} (h : 1/100 ≤ q) : 1/100 ≤ round2 q := by
  have h1 : round2 (1/100) = 1/100 := round2_of_isCents ⟨1, by norm_num⟩
  calc (1:ℚ)/100 = round2 (1/100) := h1.symm
    _ ≤ round2 q := round2_mono h

theorem isCents_add {p q : ℚ} (hp : isCents p) (hq : isCents q) :
    isCents (p + q) := by
  obtain ⟨a, rfl⟩ := hp; obtain ⟨b, rfl⟩ := hq
  exact ⟨a + b, by push_cast; ring⟩

theorem isCents_neg {q : ℚ} (hq : isCents q) : isCents (-q) := by
  obtain ⟨a, rfl⟩ := hq
  exact ⟨-a, by push_cast; ring⟩

theorem isCents_sub {p q : ℚ} (hp : isCents p) (hq : isCents q) :
    isCents (p - q) := by
  obtain ⟨a, rfl⟩ := hp; obtain ⟨b, rfl⟩ := hq
  exact ⟨a - b, by push_cast; ring⟩

theorem isCents_zero : isCents 0 := ⟨0, by norm_num⟩

theorem isCents_min {p q : ℚ} (hp : isCents p) (hq : isCents q) :
    isCents (min p q) := by
  rcases le_total p q with h | h
  · rwa [min_eq_left h]
  · rwa [min_eq_right h]

theorem isCents_abs {q : ℚ} (hq : isCents q) : isCents |q| := by
  rcases abs_cases q with ⟨h, _⟩ | ⟨h, _⟩
  · rwa [h]
  · rw [h]; exact isCents_neg hq

theorem isCents_eq_zero {q : ℚ} (hq : isCents q) (h0 : 0 ≤ q)
    (hlt : q < 1/100) : q = 0 := by
  obtain ⟨k, rfl⟩ := hq
  have h1 : (0 : ℚ) ≤ (k : ℚ) := by linarith
  have h2 : (k : ℚ) < 1 := by linarith
  have hk1 : (0 : ℤ) ≤ k := by exact_mod_cast h1
  have hk2 : k < 1 := by exact_mod_cast h2
  have hk : k = 0 := by omega
  subst hk
  norm_num

/-- Association-list keys. -/
def keys (m : KVMap) : List MemberId := m.map Prod.fst

/-- All keys distinct, the JS `Map` invariant. -/
def NodupKeys (m : KVMap) : Prop := (keys m).Nodup

theorem lookup_mapAdd_self (m : KVMap) (k : MemberId) (d : ℚ) :
    lookup k (mapAdd m k d) = some ((lookup k m).getD 0 + d) := by
  induction m with
  | nil => simp [mapAdd, lookup]
  | cons kv rest ih =>
    obtain ⟨k₁, v⟩ := kv
    by_cases h : k₁ = k
    · subst h; simp [mapAdd, lookup]
    · simp [mapAdd, lookup, h, ih]

theorem mapAdd_cons_self (k : MemberId) (v d : ℚ) (rest : KVMap) :
    mapAdd ((k, v) :: rest) k d = (k, v + d) :: rest := by
  simp [mapAdd]

theorem mapAdd_cons_ne {k₁ k : MemberId} (h : k₁ ≠ k) (v d : ℚ)
    (rest : KVMap) :
    mapAdd ((k₁, v) :: rest) k d = (k₁, v) :: mapAdd rest k d := by
  simp [mapAdd, h]

theorem keys_nil : keys [] = [] := rfl

theorem keys_cons (kv : MemberId × ℚ) (rest : KVMap) :
    keys (kv :: rest) = kv.1 :: keys rest := rfl

theorem lookup_mapAdd_ne (m : KVMap) {k k' : MemberId} (hne : k' ≠ k)
    (d : ℚ) : lookup k' (mapAdd m k d) = lookup k' m := by
  have hne' : ¬k = k' := fun hh => hne hh.symm
  induction m with
  | nil => simp [mapAdd, lookup, hne']
  | cons kv rest ih =>
    obtain ⟨k₁, v⟩ := kv
    by_cases h1 : k₁ = k
    · subst h1
      rw [mapAdd_cons_self]
      simp [lookup, hne']
    · rw [mapAdd_cons_ne h1]
      by_cases h2 : k₁ = k'
      · subst h2; simp [lookup]
      · simp [lookup, h2, ih]

theorem keys_mapAdd (m : KVMap) (k : MemberId) (d : ℚ) :
    keys (mapAdd m k d) = if k ∈ keys m then keys m else keys m ++ [k] := by
  induction m with
  | nil => simp [mapAdd, keys]
  | cons kv rest ih =>
    obtain ⟨k₁, v⟩ := kv
    by_cases h : k₁ = k
    · subst h
      rw [mapAdd_cons_self, keys_cons, keys_cons]
      simp
    · have hne : ¬k = k₁ := fun hh => h hh.symm
      rw [mapAdd_cons_ne h, keys_cons, keys_cons, ih]
      by_cases hmem : k ∈ keys rest <;> simp [hmem, hne]

theorem nodupKeys_mapAdd {m : KVMap} (hm : NodupKeys m) (k : MemberId)
    (d : ℚ) : NodupKeys (mapAdd m k d) := by
  unfold NodupKeys at *
  rw [keys_mapAdd]
  by_cases hmem : k ∈ keys m
  · simpa [hmem] using hm
  · simp only [hmem, if_false]
    rw [List.nodup_append]
    refine ⟨hm, List.nodup_singleton k, ?_⟩
    intro a ha hb
    rw [List.mem_singleton] at hb
    exact hmem (hb ▸ ha)

theorem mem_keys_iff_lookup (m : KVMap) (k : MemberId) :
    k ∈ keys m ↔ (lookup k m).isSome := by
  induction m with
  | nil => simp [keys, lookup]
  | cons kv rest ih =>
    obtain ⟨k₁, v⟩ := kv
    by_cases h : k₁ = k
    · subst h; simp [keys, lookup]
    · have hne : ¬k = k₁ := fun hh => h hh.symm
      rw [keys_cons, List.mem_cons]
      have hl : lookup k ((k₁, v) :: rest) = lookup k rest := by
        simp [lookup, h]
      rw [hl]
      simp [hne, ih]

/-- One `Map.set(key, (Map.get(key) || 0) + d)` step, as an operation. -/
def applyOp (m : KVMap) (op : MemberId × ℚ) : KVMap := mapAdd m op.1 op.2

/-- Folding a list of accumulation operations over a map. -/
def applyOps (m : KVMap) (ops : List (MemberId × ℚ)) : KVMap :=
  ops.foldl applyOp m

theorem applyOps_nil (m : KVMap) : applyOps m [] = m := rfl

theorem applyOps_cons (m : KVMap) (op : MemberId × ℚ)
    (ops : List (MemberId × ℚ)) :
    applyOps m (op :: ops) = applyOps (applyOp m op) ops := rfl

theorem applyOps_append (m : KVMap) (l₁ l₂ : List (MemberId × ℚ)) :
    applyOps m (l₁ ++ l₂) = applyOps (applyOps m l₁) l₂ := by
  simp [applyOps]

theorem keySum_nil (k : MemberId) : keySum [] k = 0 := rfl

theorem keySum_cons (op : MemberId × ℚ) (ops : List (MemberId × ℚ))
    (k : MemberId) :
    keySum (op :: ops) k = (if op.1 = k then op.2 else 0) + keySum ops k := by
  simp [keySum]

theorem keySum_append (l₁ l₂ : List (MemberId × ℚ)) (k : MemberId) :
    keySum (l₁ ++ l₂) k = keySum l₁ k + keySum l₂ k := by
  simp [keySum]

theorem lookup_applyOps_some (ops : List (MemberId × ℚ)) (m : KVMap)
    (k : MemberId) (v : ℚ) (hv : lookup k m = some v) :
    lookup k (applyOps m ops) = some (v + keySum ops k) := by
  induction ops generalizing m v with
  | nil => simp [applyOps_nil, hv, keySum_nil]
  | cons op ops ih =>
    obtain ⟨k₁, d⟩ := op
    rw [applyOps_cons, keySum_cons]
    by_cases h : k₁ = k
    · subst h
      have h1 : lookup k₁ (applyOp m (k₁, d)) = some (v + d) := by
        rw [applyOp, lookup_mapAdd_self, hv]; rfl
      rw [ih _ _ h1]
      simp [add_assoc]
    · have hne : k ≠ k₁ := fun hh => h hh.symm
      have h1 : lookup k (applyOp m (k₁, d)) = some v := by
        rw [applyOp]
        show lookup k (mapAdd m k₁ d) = some v
        rw [lookup_mapAdd_ne _ hne, hv]
      rw [ih _ _ h1]
      simp [h]

theorem lookup_applyOps_none (ops : List (MemberId × ℚ)) (m : KVMap)
    (k : MemberId) (hv : lookup k m = none) :
    lookup k (applyOps m ops) =
      if k ∈ keys ops then some (keySum ops k) else none := by
  induction ops generalizing m with
  | nil => simp [applyOps_nil, hv, keys]
  | cons op ops ih =>
    obtain ⟨k₁, d⟩ := op
    rw [applyOps_cons, keySum_cons]
    by_cases h : k₁ = k
    · subst h
      have h1 : lookup k₁ (applyOp m (k₁, d)) = some (0 + d) := by
        rw [applyOp, lookup_mapAdd_self, hv]; rfl
      rw [lookup_applyOps_some _ _ _ _ h1]
      simp [keys]
    · have hne : k ≠ k₁ := fun hh => h hh.symm
      have h1 : lookup k (applyOp m (k₁, d)) = none := by
        rw [applyOp]
        show lookup k (mapAdd m k₁ d) = none
        rw [lookup_mapAdd_ne _ hne, hv]
      rw [ih _ h1]
      have hmem : (k ∈ keys ((k₁, d) :: ops)) ↔ (k ∈ keys ops) := by
        rw [keys_cons]
        simp [hne]
      simp only [hmem, h, if_false, zero_add]

theorem mem_keys_applyOps (ops : List (MemberId × ℚ)) (m : KVMap)
    (k : MemberId) :
    k ∈ keys (applyOps m ops) ↔ k ∈ keys m ∨ k ∈ keys ops := by
  rw [mem_keys_iff_lookup, mem_keys_iff_lookup]
  cases hv : lookup k m with
  | some v => simp [lookup_applyOps_some ops m k v hv]
  | none =>
    rw [lookup_applyOps_none ops m k hv]
    by_cases hmem : k ∈ keys ops <;> simp [hmem]

theorem nodupKeys_applyOps (ops : List (MemberId × ℚ)) {m : KVMap}
    (hm : NodupKeys m) : NodupKeys (applyOps m ops) := by
  induction ops generalizing m with
  | nil => exact hm
  | cons op ops ih => exact ih (nodupKeys_mapAdd hm op.1 op.2)

theorem valSum_nil : valSum [] = 0 := rfl

theorem valSum_cons (kv : MemberId × ℚ) (rest : KVMap) :
    valSum (kv :: rest) = kv.2 + valSum rest := by
  simp [valSum]

theorem valSum_mapAdd (m : KVMap) (k : MemberId) (d : ℚ) :
    valSum (mapAdd m k d) = valSum m + d := by
  induction m with
  | nil => simp [mapAdd, valSum]
  | cons kv rest ih =>
    obtain ⟨k₁, v⟩ := kv
    by_cases h : k₁ = k
    · subst h
      rw [mapAdd_cons_self, valSum_cons, valSum_cons]
      ring
    · rw [mapAdd_cons_ne h, valSum_cons, valSum_cons, ih]
      ring

theorem valSum_applyOps (ops : List (MemberId × ℚ)) (m : KVMap) :
    valSum (applyOps m ops) = valSum m + valSum ops := by
  induction ops generalizing m with
  | nil => simp [applyOps_nil, valSum]
  | cons op ops ih =>
    obtain ⟨k₁, d⟩ := op
    rw [applyOps_cons, ih, valSum_cons]
    show valSum (mapAdd m k₁ d) + valSum ops = valSum m + (d + valSum ops)
    rw [valSum_mapAdd]
    ring

/-- The accumulation op an expense performs for one beneficiary. -/
def expenseOp (paidBy memberId : MemberId) (share : ℚ) : MemberId × ℚ :=
  if idLt memberId paidBy then (mkKey memberId paidBy, share)
  else (mkKey paidBy memberId, -share)

/-- The accumulation ops of one expense, in beneficiary order. -/
def expOps (e : Expense) : List (MemberId × ℚ) :=
  e.sharedWith.filterMap fun memberId =>
    if memberId = e.paidBy then none
    else some (expenseOp e.paidBy memberId (e.amount / (e.sharedWith.length : ℚ)))

/-- The accumulation op of one payment. -/
def payOp (p : Payment) : MemberId × ℚ :=
  if idLt p.«from» p.«to» then (mkKey p.«from» p.«to», -p.amount)
  else (mkKey p.«to» p.«from», p.amount)

/-- All accumulation ops of one `calculateBalances` call, in program order. -/
def calcOps (expenses : List Expense) (payments : List Payment) :
    List (MemberId × ℚ) :=
  expenses.flatMap expOps ++ payments.map payOp

theorem foldl_expense_aux (paidBy : MemberId) (share : ℚ)
    (l : List MemberId) (m : KVMap) :
    l.foldl
      (fun acc memberId =>
        if memberId = paidBy then acc
        else
          if idLt memberId paidBy then
            mapAdd acc (mkKey memberId paidBy) share
          else
            mapAdd acc (mkKey paidBy memberId) (-share)) m =
    applyOps m
      (l.filterMap fun memberId =>
        if memberId = paidBy then none
        else some (expenseOp paidBy memberId share)) := by
  induction l generalizing m with
  | nil => rfl
  | cons x l ih =>
    by_cases h : x = paidBy
    · simpa [h] using ih m
    · by_cases h2 : idLt x paidBy
      · simpa [h, h2, applyOps_cons, applyOp, expenseOp] using
          ih (mapAdd m (mkKey x paidBy) share)
      · simpa [h, h2, applyOps_cons, applyOp, expenseOp] using
          ih (mapAdd m (mkKey paidBy x) (-share))

theorem applyExpense_eq (m : KVMap) (e : Expense) :
    applyExpense m e = applyOps m (expOps e) := by
  unfold applyExpense expOps
  exact foldl_expense_aux e.paidBy _ e.sharedWith m

theorem foldl_applyExpense_eq (expenses : List Expense) (m : KVMap) :
    expenses.foldl applyExpense m = applyOps m (expenses.flatMap expOps) := by
  induction expenses generalizing m with
  | nil => rfl
  | cons e es ih =>
    rw [List.foldl_cons, List.flatMap_cons, applyOps_append, ih,
      applyExpense_eq]

theorem applyPayment_eq (m : KVMap) (p : Payment) :
    applyPayment m p = applyOp m (payOp p) := by
  unfold applyPayment payOp applyOp
  by_cases h : idLt p.«from» p.«to» <;> simp [h]

theorem foldl_applyPayment_eq (payments : List Payment) (m : KVMap) :
    payments.foldl applyPayment m = applyOps m (payments.map payOp) := by
  induction payments generalizing m with
  | nil => rfl
  | cons p ps ih =>
    rw [List.foldl_cons, List.map_cons, applyOps_cons, ih, applyPayment_eq]

theorem calculateBalances_eq (expenses : List Expense)
    (payments : List Payment) :
    calculateBalances expenses payments =
      (applyOps [] (calcOps expenses payments)).filterMap emitBalance := by
  unfold calculateBalances
  rw [calcOps, applyOps_append, foldl_applyExpense_eq, foldl_applyPayment_eq]

/-- The two accumulation ops each balance performs in step 1 of the
minimizer. -/
def netOps (balances : List Balance) : List (MemberId × ℚ) :=
  balances.flatMap fun b => [(b.«from», -b.amount), (b.«to», b.amount)]

theorem netOps_cons (b : Balance) (bs : List Balance) :
    netOps (b :: bs) =
      (b.«from», -b.amount) :: (b.«to», b.amount) :: netOps bs := by
  simp [netOps]

theorem netMapOf_aux (balances : List Balance) (m : KVMap) :
    balances.foldl
      (fun m b => mapAdd (mapAdd m b.«from» (-b.amount)) b.«to» b.amount) m =
    applyOps m (netOps balances) := by
  induction balances generalizing m with
  | nil => rfl
  | cons b bs ih =>
    rw [List.foldl_cons, netOps_cons, applyOps_cons, applyOps_cons]
    exact ih _

theorem netMapOf_eq (balances : List Balance) :
    netMapOf balances = applyOps [] (netOps balances) :=
  netMapOf_aux balances []

theorem emitBalance_some {kv : MemberId × ℚ} {b : Balance}
    (h : emitBalance kv = some b) :
    b.amount = |round2 kv.2| ∧ 1/100 ≤ |round2 kv.2| := by
  unfold emitBalance at h
  by_cases hcond : (0.01 : ℚ) ≤ |round2 kv.2|
  · have hc : (1:ℚ)/100 ≤ |round2 kv.2| := by rw [← eps_eq]; exact hcond
    by_cases hpos : 0 < round2 kv.2
    · simp only [hcond, if_pos hcond, hpos, if_pos hpos] at h
      obtain rfl := (Option.some.injEq _ _).mp h.symm
      exact ⟨rfl, hc⟩
    · simp only [hcond, if_pos hcond, hpos, if_neg hpos] at h
      obtain rfl := (Option.some.injEq _ _).mp h.symm
      exact ⟨rfl, hc⟩
  · simp [hcond] at h

theorem mem_calculateBalances_amount {expenses : List Expense}
    {payments : List Payment} {b : Balance}
    (hb : b ∈ calculateBalances expenses payments) :
    isCents b.amount ∧ 1/100 ≤ b.amount := by
  unfold calculateBalances at hb
  rw [List.mem_filterMap] at hb
  obtain ⟨kv, _, hemit⟩ := hb
  obtain ⟨hamt, hge⟩ := emitBalance_some hemit
  rw [hamt]
  exact ⟨isCents_abs (isCents_round2 kv.2), hge⟩

theorem insertDesc_perm (x : MemberId × ℚ) (l : List (MemberId × ℚ)) :
    (insertDesc x l).Perm (x :: l) := by
  induction l with
  | nil => exact List.Perm.refl _
  | cons y ys ih =>
    unfold insertDesc
    by_cases h : y.2 < x.2
    · simp only [h, if_pos h]
      exact List.Perm.refl _
    · simp only [h, if_neg h]
      exact (ih.cons y).trans (List.Perm.swap x y ys)

theorem sortDesc_aux (l : List (MemberId × ℚ)) (acc : List (MemberId × ℚ)) :
    (l.foldl (fun acc x => insertDesc x acc) acc).Perm (l ++ acc) := by
  induction l generalizing acc with
  | nil => simp
  | cons x l ih =>
    rw [List.foldl_cons]
    refine (ih (insertDesc x acc)).trans ?_
    refine (List.Perm.append_left l (insertDesc_perm x acc)).trans ?_
    exact List.perm_middle

theorem sortDesc_perm (l : List (MemberId × ℚ)) : (sortDesc l).Perm l := by
  have h := sortDesc_aux l []
  simpa [sortDesc] using h

theorem mem_debtorsOf {m : KVMap} {e : MemberId × ℚ} (he : e ∈ debtorsOf m) :
    ∃ kv ∈ m, kv.2 < -0.01 ∧ e = (kv.1, |kv.2|) := by
  unfold debtorsOf at he
  rw [List.mem_filterMap] at he
  obtain ⟨kv, hkv, hf⟩ := he
  by_cases h : kv.2 < -0.01
  · refine ⟨kv, hkv, h, ?_⟩
    simp [h] at hf
    exact hf.symm
  · simp [h] at hf

theorem mem_creditorsOf {m : KVMap} {e : MemberId × ℚ}
    (he : e ∈ creditorsOf m) :
    ∃ kv ∈ m, ¬kv.2 < -0.01 ∧ 0.01 < kv.2 ∧ e = (kv.1, kv.2) := by
  unfold creditorsOf at he
  rw [List.mem_filterMap] at he
  obtain ⟨kv, hkv, hf⟩ := he
  by_cases h : kv.2 < -0.01
  · simp [h] at hf
  · by_cases h2 : (0.01 : ℚ) < kv.2
    · refine ⟨kv, hkv, h, h2, ?_⟩
      simp [h, h2] at hf
      exact hf.symm
    · simp [h, h2] at hf

theorem debtorsOf_amount {m : KVMap} {e : MemberId × ℚ}
    (he : e ∈ debtorsOf m) : 1/100 ≤ e.2 := by
  obtain ⟨kv, _, hlt, rfl⟩ := mem_debtorsOf he
  rw [eps_eq] at hlt
  have : (1:ℚ)/100 ≤ -kv.2 := by linarith
  calc (1:ℚ)/100 ≤ -kv.2 := this
    _ ≤ |kv.2| := by rw [abs_eq_neg_self.mpr (by linarith : kv.2 ≤ 0)]

theorem creditorsOf_amount {m : KVMap} {e : MemberId × ℚ}
    (he : e ∈ creditorsOf m) : 1/100 ≤ e.2 := by
  obtain ⟨kv, _, _, hgt, rfl⟩ := mem_creditorsOf he
  rw [eps_eq] at hgt
  linarith

theorem settleGo_amount_ge (fuel : ℕ) (ds cs : List (MemberId × ℚ))
    (hd : ∀ e ∈ ds, 1/100 ≤ e.2) (hc : ∀ e ∈ cs, 1/100 ≤ e.2) :
    ∀ s ∈ settleGo fuel ds cs, 1/100 ≤ s.amount := by
  induction fuel, ds, cs using settleGo.induct with
  | case1 t x => simp [settleGo]
  | case2 t x hx =>
    cases x with
    | nil => simp [settleGo]
    | cons d ds => simp [settleGo]
  | case3 d ds c cs => simp [settleGo]
  | case4 fuel dId dAmt ds cId cAmt cs amount h1 h2 ih =>
    have hdh : 1/100 ≤ dAmt := hd (dId, dAmt) (List.mem_cons_self _ _)
    have hch : 1/100 ≤ cAmt := hc (cId, cAmt) (List.mem_cons_self _ _)
    have hr : 1/100 ≤ round2 (min dAmt cAmt) :=
      round2_ge_eps (le_min hdh hch)
    simp only [settleGo, h1, if_pos h1, h2, if_pos h2]
    intro s hs
    rcases List.mem_cons.mp hs with rfl | hs'
    · exact hr
    · exact ih (fun e he => hd e (List.mem_cons_of_mem _ he))
        (fun e he => hc e (List.mem_cons_of_mem _ he)) s hs'
  | case5 fuel dId dAmt ds cId cAmt cs amount h1 h2 ih =>
    have hdh : 1/100 ≤ dAmt := hd (dId, dAmt) (List.mem_cons_self _ _)
    have hch : 1/100 ≤ cAmt := hc (cId, cAmt) (List.mem_cons_self _ _)
    have hr : 1/100 ≤ round2 (min dAmt cAmt) :=
      round2_ge_eps (le_min hdh hch)
    have hc2 : (0.01 : ℚ) ≤ cAmt - min dAmt cAmt := not_lt.mp h2
    simp only [settleGo, h1, if_pos h1, h2, if_neg h2]
    intro s hs
    rcases List.mem_cons.mp hs with rfl | hs'
    · exact hr
    · refine ih (fun e he => hd e (List.mem_cons_of_mem _ he)) ?_ s hs'
      intro e he
      rcases List.mem_cons.mp he with rfl | he'
      · rw [← eps_eq]; exact hc2
      · exact hc e (List.mem_cons_of_mem _ he')
  | case6 fuel dId dAmt ds cId cAmt cs amount h1 h2 ih =>
    have hdh : 1/100 ≤ dAmt := hd (dId, dAmt) (List.mem_cons_self _ _)
    have hch : 1/100 ≤ cAmt := hc (cId, cAmt) (List.mem_cons_self _ _)
    have hr : 1/100 ≤ round2 (min dAmt cAmt) :=
      round2_ge_eps (le_min hdh hch)
    simp only [settleGo, h1, if_neg h1, h2, if_pos h2]
    intro s hs
    rcases List.mem_cons.mp hs with rfl | hs'
    · exact hr
    · exact ih (fun e he => hd e (List.mem_cons_of_mem _ he))
        (fun e he => hc e (List.mem_cons_of_mem _ he)) s hs'
  | case7 fuel dId dAmt ds cId cAmt cs amount h1 h2 ih =>
    have hdh : 1/100 ≤ dAmt := hd (dId, dAmt) (List.mem_cons_self _ _)
    have hch : 1/100 ≤ cAmt := hc (cId, cAmt) (List.mem_cons_self _ _)
    have hr : 1/100 ≤ round2 (min dAmt cAmt) :=
      round2_ge_eps (le_min hdh hch)
    have hd2 : (0.01 : ℚ) ≤ dAmt - min dAmt cAmt := not_lt.mp h2
    simp only [settleGo, h1, if_neg h1, h2, if_neg h2]
    intro s hs
    rcases List.mem_cons.mp hs with rfl | hs'
    · exact hr
    · refine ih ?_ (fun e he => hc e (List.mem_cons_of_mem _ he)) s hs'
      intro e he
      rcases List.mem_cons.mp he with rfl | he'
      · rw [← eps_eq]; exact hd2
      · exact hd e (List.mem_cons_of_mem _ he')

theorem settleGo_endpoints (fuel : ℕ) (ds cs : List (MemberId × ℚ)) :
    ∀ s ∈ settleGo fuel ds cs, s.«from» ∈ keys ds ∧ s.«to» ∈ keys cs := by
  induction fuel, ds, cs using settleGo.induct with
  | case1 t x => simp [settleGo]
  | case2 t x hx =>
    cases x with
    | nil => simp [settleGo]
    | cons d ds => simp [settleGo]
  | case3 d ds c cs => simp [settleGo]
  | case4 fuel dId dAmt ds cId cAmt cs amount h1 h2 ih =>
    simp only [settleGo, h1, if_pos h1, h2, if_pos h2]
    intro s hs
    rcases List.mem_cons.mp hs with rfl | hs'
    · exact ⟨by simp [keys_cons], by simp [keys_cons]⟩
    · obtain ⟨hf, ht⟩ := ih s hs'
      exact ⟨by simp [keys_cons, hf], by simp [keys_cons, ht]⟩
  | case5 fuel dId dAmt ds cId cAmt cs amount h1 h2 ih =>
    simp only [settleGo, h1, if_pos h1, h2, if_neg h2]
    intro s hs
    rcases List.mem_cons.mp hs with rfl | hs'
    · exact ⟨by simp [keys_cons], by simp [keys_cons]⟩
    · obtain ⟨hf, ht⟩ := ih s hs'
      rw [keys_cons] at ht
      exact ⟨by simp [keys_cons, hf], by simpa [keys_cons] using ht⟩
  | case6 fuel dId dAmt ds cId cAmt cs amount h1 h2 ih =>
    simp only [settleGo, h1, if_neg h1, h2, if_pos h2]
    intro s hs
    rcases List.mem_cons.mp hs with rfl | hs'
    · exact ⟨by simp [keys_cons], by simp [keys_cons]⟩
    · obtain ⟨hf, ht⟩ := ih s hs'
      exact ⟨by simp [keys_cons, hf], by simp [keys_cons, ht]⟩
  | case7 fuel dId dAmt ds cId cAmt cs amount h1 h2 ih =>
    simp only [settleGo, h1, if_neg h1, h2, if_neg h2]
    intro s hs
    rcases List.mem_cons.mp hs with rfl | hs'
    · exact ⟨by simp [keys_cons], by simp [keys_cons]⟩
    · obtain ⟨hf, ht⟩ := ih s hs'
      rw [keys_cons] at hf
      exact ⟨by simpa [keys_cons] using hf, by simp [keys_cons, ht]⟩

theorem keys_perm_of_perm {l₁ l₂ : List (MemberId × ℚ)} (h : l₁.Perm l₂) :
    (keys l₁).Perm (keys l₂) := h.map Prod.fst

theorem lookup_of_mem_nodup {m : KVMap} {k : MemberId} {v : ℚ}
    (hm : NodupKeys m) (hkv : (k, v) ∈ m) : lookup k m = some v := by
  induction m with
  | nil => simp at hkv
  | cons kv rest ih =>
    obtain ⟨k₁, v₁⟩ := kv
    rw [NodupKeys, keys_cons, List.nodup_cons] at hm
    rcases List.mem_cons.mp hkv with heq | hmem
    · cases heq.symm
      simp [lookup]
    · have hkmem : k ∈ keys rest := by
        have h := List.mem_map_of_mem Prod.fst hmem
        simpa [keys] using h
      have hk : ¬k₁ = k := fun hh => hm.1 (hh ▸ hkmem)
      simp [lookup, hk, ih hm.2 hmem]

theorem mem_keys_debtorsOf {m : KVMap} {k : MemberId}
    (h : k ∈ keys (debtorsOf m)) : ∃ v, (k, v) ∈ m ∧ v < -0.01 := by
  rw [keys, List.mem_map] at h
  obtain ⟨e, he, hek⟩ := h
  obtain ⟨kv, hkv, hlt, rfl⟩ := mem_debtorsOf he
  have hk : kv.1 = k := hek
  refine ⟨kv.2, ?_, hlt⟩
  rw [← hk]
  simpa using hkv

theorem mem_keys_creditorsOf {m : KVMap} {k : MemberId}
    (h : k ∈ keys (creditorsOf m)) : ∃ v, (k, v) ∈ m ∧ 0.01 < v := by
  rw [keys, List.mem_map] at h
  obtain ⟨e, he, hek⟩ := h
  obtain ⟨kv, hkv, _, hgt, rfl⟩ := mem_creditorsOf he
  have hk : kv.1 = k := hek
  refine ⟨kv.2, ?_, hgt⟩
  rw [← hk]
  simpa using hkv

theorem nodupKeys_netMapOf (balances : List Balance) :
    NodupKeys (netMapOf balances) := by
  rw [netMapOf_eq]
  exact nodupKeys_applyOps _ (by simp [NodupKeys, keys])

theorem settleGo_length_le (fuel : ℕ) (ds cs : List (MemberId × ℚ)) :
    (settleGo fuel ds cs).length ≤ ds.length + cs.length - 1 := by
  induction fuel, ds, cs using settleGo.induct with
  | case1 t x => simp [settleGo]
  | case2 t x hx => cases x <;> simp [settleGo]
  | case3 d ds c cs => simp [settleGo]
  | case4 fuel dId dAmt ds cId cAmt cs amount h1 h2 ih =>
    simp only [settleGo, h1, h2, ite_true, ite_false, List.length_cons]
    omega
  | case5 fuel dId dAmt ds cId cAmt cs amount h1 h2 ih =>
    have ha : amount = dAmt ⊓ cAmt := rfl
    rw [ha] at ih
    simp only [settleGo, h1, h2, ite_true, ite_false, List.length_cons]
    simp only [List.length_cons] at ih
    omega
  | case6 fuel dId dAmt ds cId cAmt cs amount h1 h2 ih =>
    simp only [settleGo, h1, h2, ite_true, ite_false, List.length_cons]
    omega
  | case7 fuel dId dAmt ds cId cAmt cs amount h1 h2 ih =>
    have ha : amount = dAmt ⊓ cAmt := rfl
    rw [ha] at ih
    simp only [settleGo, h1, h2, ite_true, ite_false, List.length_cons]
    simp only [List.length_cons] at ih
    omega

/-- The number of distinct members whose net position is more than epsilon
away from zero (step 2 of the minimizer classifies exactly these as debtors
or creditors). -/
def nonzeroCount (m : KVMap) : ℕ :=
  (m.filter fun kv => decide (kv.2 < -0.01) || decide (0.01 < kv.2)).length

theorem debtors_creditors_length (m : KVMap) :
    (debtorsOf m).length + (creditorsOf m).length = nonzeroCount m := by
  induction m with
  | nil => rfl
  | cons kv rest ih =>
    by_cases h1 : kv.2 < -0.01
    · simp only [debtorsOf, creditorsOf, nonzeroCount, List.filterMap_cons,
        List.filter_cons, h1, if_pos h1, decide_true_eq_true] at ih ⊢
      simp [h1, debtorsOf, creditorsOf, nonzeroCount] at ih ⊢
      omega
    · by_cases h2 : (0.01 : ℚ) < kv.2
      · simp [h1, h2, debtorsOf, creditorsOf, nonzeroCount] at ih ⊢
        omega
      · simp [h1, h2, debtorsOf, creditorsOf, nonzeroCount] at ih ⊢
        omega

/-- Variant of `minimizeTransactions` with the loop's out-of-fuel case made
explicit. -/
def minimizeTransactionsOpt (balances : List Balance) :
    Option (List Settlement) :=
  let netAmounts := netMapOf balances
  let debtors := sortDesc (debtorsOf netAmounts)
  let creditors := sortDesc (creditorsOf netAmounts)
  settleGoOpt (debtors.length + creditors.length) debtors creditors

theorem settleGoOpt_eq (fuel : ℕ) (ds cs : List (MemberId × ℚ))
    (h : ds.length + cs.length ≤ fuel) :
    settleGoOpt fuel ds cs = some (settleGo fuel ds cs) := by
  induction fuel, ds, cs using settleGoOpt.induct with
  | case1 t x => simp [settleGoOpt, settleGo]
  | case2 t x hx => cases x <;> simp [settleGoOpt, settleGo]
  | case3 d ds c cs => simp [List.length_cons] at h
  | case4 fuel dId dAmt ds cId cAmt cs amount h1 h2 ih =>
    simp only [List.length_cons] at h
    simp only [settleGoOpt, settleGo, h1, if_pos h1, h2, if_pos h2]
    rw [ih (by omega)]
    rfl
  | case5 fuel dId dAmt ds cId cAmt cs amount h1 h2 ih =>
    simp only [List.length_cons] at h
    simp only [settleGoOpt, settleGo, h1, if_pos h1, h2, if_neg h2]
    rw [ih (by simp only [List.length_cons]; omega)]
    rfl
  | case6 fuel dId dAmt ds cId cAmt cs amount h1 h2 ih =>
    simp only [List.length_cons] at h
    simp only [settleGoOpt, settleGo, h1, if_neg h1, h2, if_pos h2]
    rw [ih (by omega)]
    rfl
  | case7 fuel dId dAmt ds cId cAmt cs amount h1 h2 ih =>
    simp only [List.length_cons] at h
    simp only [settleGoOpt, settleGo, h1, if_neg h1, h2, if_neg h2]
    rw [ih (by simp only [List.length_cons]; omega)]
    rfl

theorem keySum_perm {l₁ l₂ : List (MemberId × ℚ)} (h : l₁.Perm l₂)
    (k : MemberId) : keySum l₁ k = keySum l₂ k := by
  unfold keySum
  exact (h.map _).sum_eq

theorem valSum_perm {l₁ l₂ : List (MemberId × ℚ)} (h : l₁.Perm l₂) :
    valSum l₁ = valSum l₂ := by
  unfold valSum
  exact (h.map _).sum_eq

theorem lookup_eq_none_iff (m : KVMap) (k : MemberId) :
    lookup k m = none ↔ k ∉ keys m := by
  rw [mem_keys_iff_lookup]
  cases lookup k m <;> simp

theorem lookup_append (l₁ l₂ : KVMap) (k : MemberId) :
    lookup k (l₁ ++ l₂) =
      match lookup k l₁ with
      | some v => some v
      | none => lookup k l₂ := by
  induction l₁ with
  | nil => simp [lookup]
  | cons kv rest ih =>
    obtain ⟨k₁, v₁⟩ := kv
    by_cases h : k₁ = k
    · subst h; simp [lookup]
    · simp [lookup, h, ih]

theorem lookup_some_split {m : KVMap} {k : MemberId} {v : ℚ}
    (h : lookup k m = some v) :
    ∃ l₁ l₂, m = l₁ ++ (k, v) :: l₂ ∧ k ∉ keys l₁ := by
  induction m with
  | nil => simp [lookup] at h
  | cons kv rest ih =>
    obtain ⟨k₁, v₁⟩ := kv
    by_cases hk : k₁ = k
    · subst hk
      rw [lookup, if_pos rfl, Option.some.injEq] at h
      subst h
      exact ⟨[], rest, rfl, by simp [keys]⟩
    · rw [lookup, if_neg hk] at h
      obtain ⟨l₁, l₂, heq, hnot⟩ := ih h
      refine ⟨(k₁, v₁) :: l₁, l₂, by rw [heq, List.cons_append], ?_⟩
      rw [keys_cons, List.mem_cons]
      rintro (rfl | hmem)
      · exact hk rfl
      · exact hnot hmem

theorem lookup_middle_erase {l₁ l₂ : KVMap} {k k' : MemberId} {v : ℚ}
    (hne : k' ≠ k) :
    lookup k' (l₁ ++ (k, v) :: l₂) = lookup k' (l₁ ++ l₂) := by
  rw [lookup_append, lookup_append]
  cases lookup k' l₁ with
  | some w => rfl
  | none =>
    have hne' : ¬k = k' := fun h => hne h.symm
    simp [lookup, hne']

theorem keys_append (l₁ l₂ : KVMap) :
    keys (l₁ ++ l₂) = keys l₁ ++ keys l₂ := by
  simp [keys]

theorem assoc_perm_of_lookup_eq :
    ∀ (m₁ m₂ : KVMap), NodupKeys m₁ → NodupKeys m₂ →
      (∀ k, lookup k m₁ = lookup k m₂) → m₁.Perm m₂
  | [], m₂, _, _, hl => by
    cases m₂ with
    | nil => exact List.Perm.refl _
    | cons kv rest =>
      exfalso
      have h := hl kv.1
      rw [show lookup kv.1 [] = none from rfl] at h
      rw [show lookup kv.1 (kv :: rest) = some kv.2 from by
        obtain ⟨a, b⟩ := kv
        simp [lookup]] at h
      exact Option.noConfusion h
  | (k, v) :: t, m₂, hm₁, hm₂, hl => by
    have hself : lookup k ((k, v) :: t) = some v := by simp [lookup]
    have hm₂k : lookup k m₂ = some v := by rw [← hl k]; exact hself
    obtain ⟨l₁, l₂, rfl, hnotl₁⟩ := lookup_some_split hm₂k
    have hm₁' : NodupKeys t := by
      rw [NodupKeys, keys_cons, List.nodup_cons] at hm₁
      exact hm₁.2
    have hknott : k ∉ keys t := by
      rw [NodupKeys, keys_cons, List.nodup_cons] at hm₁
      exact hm₁.1
    have hkeys₂ : (keys l₁ ++ k :: keys l₂).Nodup := by
      have := hm₂
      rw [NodupKeys, keys_append, keys_cons] at this
      exact this
    have hknotl₂ : k ∉ keys l₂ := by
      rw [List.nodup_append] at hkeys₂
      intro hmem
      exact (List.nodup_cons.mp hkeys₂.2.1).1 hmem
    have hm₂' : NodupKeys (l₁ ++ l₂) := by
      rw [NodupKeys, keys_append]
      rw [List.nodup_append] at hkeys₂ ⊢
      refine ⟨hkeys₂.1, (List.nodup_cons.mp hkeys₂.2.1).2, ?_⟩
      intro a ha hb
      exact hkeys₂.2.2 ha (List.mem_cons_of_mem _ hb)
    have hlook' : ∀ k', lookup k' t = lookup k' (l₁ ++ l₂) := by
      intro k'
      by_cases hk : k' = k
      · subst hk
        rw [(lookup_eq_none_iff t k').mpr hknott]
        rw [eq_comm, lookup_eq_none_iff, keys_append, List.mem_append]
        rintro (h | h)
        · exact hnotl₁ h
        · exact hknotl₂ h
      · have hk' : ¬k = k' := fun hh => hk hh.symm
        have h1 : lookup k' ((k, v) :: t) = lookup k' t := by
          simp [lookup, hk']
        rw [← h1, hl k', lookup_middle_erase hk]
    have hperm : t.Perm (l₁ ++ l₂) :=
      assoc_perm_of_lookup_eq t (l₁ ++ l₂) hm₁' hm₂' hlook'
    exact (hperm.cons (k, v)).trans List.perm_middle.symm

theorem nodupKeys_nil : NodupKeys [] := by
  simp [NodupKeys, keys]

theorem calcOps_perm {e₁ e₂ : List Expense} {p₁ p₂ : List Payment}
    (he : e₁.Perm e₂) (hp : p₁.Perm p₂) :
    (calcOps e₁ p₁).Perm (calcOps e₂ p₂) :=
  (he.flatMap_right expOps).append (hp.map payOp)

theorem lookup_applyOps_nil_perm {ops₁ ops₂ : List (MemberId × ℚ)}
    (h : ops₁.Perm ops₂) (k : MemberId) :
    lookup k (applyOps [] ops₁) = lookup k (applyOps [] ops₂) := by
  rw [lookup_applyOps_none ops₁ [] k rfl, lookup_applyOps_none ops₂ [] k rfl]
  have hmem : k ∈ keys ops₁ ↔ k ∈ keys ops₂ := (keys_perm_of_perm h).mem_iff
  by_cases hk : k ∈ keys ops₁
  · rw [if_pos hk, if_pos (hmem.mp hk), keySum_perm h]
  · rw [if_neg hk, if_neg (fun hh => hk (hmem.mpr hh))]

theorem applyOps_nil_perm {ops₁ ops₂ : List (MemberId × ℚ)}
    (h : ops₁.Perm ops₂) : (applyOps [] ops₁).Perm (applyOps [] ops₂) :=
  assoc_perm_of_lookup_eq _ _ (nodupKeys_applyOps _ nodupKeys_nil)
    (nodupKeys_applyOps _ nodupKeys_nil) (lookup_applyOps_nil_perm h)

theorem outSum_nil (m : MemberId) : outSum [] m = 0 := rfl

theorem outSum_cons (s : Settlement) (S : List Settlement) (m : MemberId) :
    outSum (s :: S) m = (if s.«from» = m then s.amount else 0) + outSum S m := by
  simp [outSum]

theorem inSum_nil (m : MemberId) : inSum [] m = 0 := rfl

theorem inSum_cons (s : Settlement) (S : List Settlement) (m : MemberId) :
    inSum (s :: S) m = (if s.«to» = m then s.amount else 0) + inSum S m := by
  simp [inSum]

theorem valSum_nonneg {l : List (MemberId × ℚ)}
    (h : ∀ e ∈ l, 0 ≤ e.2) : 0 ≤ valSum l := by
  induction l with
  | nil => simp [valSum]
  | cons e rest ih =>
    rw [valSum_cons]
    have h1 := h e (List.mem_cons_self _ _)
    have h2 := ih fun x hx => h x (List.mem_cons_of_mem _ hx)
    linarith

theorem eq_nil_of_valSum_zero {l : List (MemberId × ℚ)}
    (hpos : ∀ e ∈ l, 0 < e.2) (h0 : valSum l = 0) : l = [] := by
  cases l with
  | nil => rfl
  | cons e rest =>
    exfalso
    have h1 : 0 < e.2 := hpos e (List.mem_cons_self _ _)
    have h2 : 0 ≤ valSum rest :=
      valSum_nonneg fun x hx => (hpos x (List.mem_cons_of_mem _ hx)).le
    rw [valSum_cons] at h0
    linarith

/-- Exact conservation of the greedy loop: when every list entry is an exact
positive multiple of `0.01` and the two sides have equal totals, the loop
runs to simultaneous exhaustion with exact (un-rounded) transfers, and for
every member the settled outflow equals the member's debtor-list total and
the settled inflow equals the member's creditor-list total. -/
theorem settleGo_conserve (fuel : ℕ) :
    ∀ (ds cs : List (MemberId × ℚ)),
      ds.length + cs.length ≤ fuel →
      (∀ e ∈ ds, 1/100 ≤ e.2 ∧ isCents e.2) →
      (∀ e ∈ cs, 1/100 ≤ e.2 ∧ isCents e.2) →
      valSum ds = valSum cs →
      ∀ m, outSum (settleGo fuel ds cs) m = keySum ds m ∧
        inSum (settleGo fuel ds cs) m = keySum cs m := by
  induction fuel with
  | zero =>
    intro ds cs hfuel hd hc hsum m
    have hds : ds = [] := List.length_eq_zero.mp (by omega)
    have hcs : cs = [] := List.length_eq_zero.mp (by omega)
    subst hds; subst hcs
    exact ⟨rfl, rfl⟩
  | succ fuel ih =>
    intro ds cs hfuel hd hc hsum m
    match ds, cs with
    | [], cs =>
      have hcs : cs = [] := by
        refine eq_nil_of_valSum_zero
          (fun e he => lt_of_lt_of_le (by norm_num) (hc e he).1) ?_
        rw [← hsum]
        rfl
      subst hcs
      exact ⟨rfl, rfl⟩
    | (dId, dAmt) :: ds', [] =>
      exfalso
      have hds : (dId, dAmt) :: ds' = [] := by
        refine eq_nil_of_valSum_zero
          (fun e he => lt_of_lt_of_le (by norm_num) (hd e he).1) ?_
        rw [hsum]
        rfl
      exact List.noConfusion hds
    | (dId, dAmt) :: ds', (cId, cAmt) :: cs' =>
      obtain ⟨hdge, hdcents⟩ := hd _ (List.mem_cons_self _ _)
      obtain ⟨hcge, hccents⟩ := hc _ (List.mem_cons_self _ _)
      have hd' : ∀ e ∈ ds', 1/100 ≤ e.2 ∧ isCents e.2 :=
        fun e he => hd e (List.mem_cons_of_mem _ he)
      have hc' : ∀ e ∈ cs', 1/100 ≤ e.2 ∧ isCents e.2 :=
        fun e he => hc e (List.mem_cons_of_mem _ he)
      simp only [List.length_cons] at hfuel
      rw [valSum_cons, valSum_cons] at hsum
      by_cases h1 : dAmt ≤ cAmt
      · have hmin : min dAmt cAmt = dAmt := min_eq_left h1
        have hround : round2 (min dAmt cAmt) = dAmt := by
          rw [hmin]; exact round2_of_isCents hdcents
        by_cases h2 : cAmt - min dAmt cAmt < 0.01
        · have hceq : cAmt = dAmt := by
            have hz : cAmt - dAmt = 0 := by
              refine isCents_eq_zero (isCents_sub hccents hdcents)
                (by linarith) ?_
              rw [hmin, eps_eq] at h2
              linarith
            linarith
          have hrec := ih ds' cs' (by omega) hd' hc' (by linarith) m
          simp only [settleGo, h1, h2, ite_true]
          rw [outSum_cons, inSum_cons]
          constructor
          · rw [keySum_cons, hrec.1]
            simp only [hround]
          · rw [keySum_cons, hrec.2, hround, hceq]
        · have hcents2 : isCents (cAmt - dAmt) := isCents_sub hccents hdcents
          have hge2 : 1/100 ≤ cAmt - dAmt := by
            rw [hmin, eps_eq] at h2
            linarith
          have hrec := ih ds' ((cId, cAmt - min dAmt cAmt) :: cs')
            (by simp only [List.length_cons]; omega)
            hd'
            (by
              intro e he
              rcases List.mem_cons.mp he with rfl | he'
              · rw [hmin]
                exact ⟨hge2, hcents2⟩
              · exact hc' e he')
            (by
              rw [valSum_cons, hmin]
              simp only
              linarith)
            m
          simp only [settleGo, h1, h2, ite_true, ite_false]
          rw [outSum_cons, inSum_cons]
          constructor
          · rw [keySum_cons, hrec.1]
            simp only [hround]
          · have hrd : round2 dAmt = dAmt := round2_of_isCents hdcents
            rw [keySum_cons, hrec.2, keySum_cons, hmin, hrd]
            by_cases hm : cId = m
            · rw [if_pos hm, if_pos hm, if_pos hm]
              ring
            · rw [if_neg hm, if_neg hm, if_neg hm]
              ring
      · have hlt : cAmt < dAmt := not_le.mp h1
        have hmin : min dAmt cAmt = cAmt := min_eq_right hlt.le
        have hround : round2 (min dAmt cAmt) = cAmt := by
          rw [hmin]; exact round2_of_isCents hccents
        have hcents2 : isCents (dAmt - cAmt) := isCents_sub hdcents hccents
        by_cases h2 : dAmt - min dAmt cAmt < 0.01
        · exfalso
          have hz : dAmt - cAmt = 0 := by
            refine isCents_eq_zero hcents2 (by linarith) ?_
            rw [hmin, eps_eq] at h2
            linarith
          linarith
        · have hge2 : 1/100 ≤ dAmt - cAmt := by
            rw [hmin, eps_eq] at h2
            linarith
          have hrec := ih ((dId, dAmt - min dAmt cAmt) :: ds') cs'
            (by simp only [List.length_cons]; omega)
            (by
              intro e he
              rcases List.mem_cons.mp he with rfl | he'
              · rw [hmin]
                exact ⟨hge2, hcents2⟩
              · exact hd' e he')
            hc'
            (by
              rw [valSum_cons, hmin]
              simp only
              linarith)
            m
          simp only [settleGo, h1, h2, ite_true, ite_false]
          rw [outSum_cons, inSum_cons]
          constructor
          · have hrd : round2 cAmt = cAmt := round2_of_isCents hccents
            rw [keySum_cons, hrec.1, keySum_cons, hmin, hrd]
            by_cases hm : dId = m
            · rw [if_pos hm, if_pos hm, if_pos hm]
              ring
            · rw [if_neg hm, if_neg hm, if_neg hm]
              ring
          · rw [keySum_cons, hrec.2]
            simp only [hround]

theorem keySum_eq_zero {l : List (MemberId × ℚ)} {k : MemberId}
    (h : k ∉ keys l) : keySum l k = 0 := by
  induction l with
  | nil => rfl
  | cons kv rest ih =>
    rw [keys_cons, List.mem_cons] at h
    push_neg at h
    rw [keySum_cons, ih h.2, if_neg (fun hh => h.1 hh.symm)]
    norm_num

theorem isCents_keySum {l : List (MemberId × ℚ)} (k : MemberId)
    (h : ∀ op ∈ l, isCents op.2) : isCents (keySum l k) := by
  induction l with
  | nil => exact isCents_zero
  | cons op rest ih =>
    rw [keySum_cons]
    refine isCents_add ?_ (ih fun x hx => h x (List.mem_cons_of_mem _ hx))
    by_cases hk : op.1 = k
    · rw [if_pos hk]; exact h op (List.mem_cons_self _ _)
    · rw [if_neg hk]; exact isCents_zero

theorem netOps_cents {balances : List Balance}
    (h : ∀ b ∈ balances, isCents b.amount) :
    ∀ op ∈ netOps balances, isCents op.2 := by
  intro op hop
  rw [netOps, List.mem_flatMap] at hop
  obtain ⟨b, hb, hop⟩ := hop
  rcases List.mem_cons.mp hop with rfl | hop
  · exact isCents_neg (h b hb)
  · rcases List.mem_cons.mp hop with rfl | hop
    · exact h b hb
    · simp at hop

theorem mem_of_lookup {m : KVMap} {k : MemberId} {v : ℚ}
    (h : lookup k m = some v) : (k, v) ∈ m := by
  obtain ⟨l₁, l₂, rfl, _⟩ := lookup_some_split h
  exact List.mem_append.mpr (Or.inr (List.mem_cons_self _ _))

theorem netMapOf_cents {balances : List Balance}
    (h : ∀ b ∈ balances, isCents b.amount) :
    ∀ kv ∈ netMapOf balances, isCents kv.2 := by
  intro kv hkv
  have hl : lookup kv.1 (netMapOf balances) = some kv.2 :=
    lookup_of_mem_nodup (nodupKeys_netMapOf balances) (by simpa using hkv)
  rw [netMapOf_eq, lookup_applyOps_none _ [] _ rfl] at hl
  by_cases hmem : kv.1 ∈ keys (netOps balances)
  · rw [if_pos hmem, Option.some.injEq] at hl
    rw [← hl]
    exact isCents_keySum _ (netOps_cents h)
  · rw [if_neg hmem] at hl
    exact Option.noConfusion hl

theorem valSum_netOps (balances : List Balance) :
    valSum (netOps balances) = 0 := by
  induction balances with
  | nil => rfl
  | cons b bs ih =>
    rw [netOps_cons, valSum_cons, valSum_cons, ih]
    simp

theorem valSum_netMapOf (balances : List Balance) :
    valSum (netMapOf balances) = 0 := by
  rw [netMapOf_eq, valSum_applyOps, valSum_netOps]
  rfl

theorem debtors_creditors_valSum (m : KVMap)
    (hclean : ∀ kv ∈ m, kv.2 = 0 ∨ 1/100 < |kv.2|) :
    valSum (debtorsOf m) - valSum (creditorsOf m) = -valSum m := by
  induction m with
  | nil => simp [debtorsOf, creditorsOf, valSum]
  | cons kv rest ih =>
    have ih' := ih fun x hx => hclean x (List.mem_cons_of_mem _ hx)
    by_cases h1 : kv.2 < -0.01
    · have hstep : debtorsOf (kv :: rest) = (kv.1, |kv.2|) :: debtorsOf rest := by
        simp [debtorsOf, h1]
      have hstep2 : creditorsOf (kv :: rest) = creditorsOf rest := by
        simp [creditorsOf, h1]
      rw [hstep, hstep2, valSum_cons, valSum_cons]
      have habs : |kv.2| = -kv.2 := abs_of_neg (by rw [eps_eq] at h1; linarith)
      simp only [habs]
      linarith
    · by_cases h2 : (0.01 : ℚ) < kv.2
      · have hstep : debtorsOf (kv :: rest) = debtorsOf rest := by
          simp [debtorsOf, h1]
        have hstep2 :
            creditorsOf (kv :: rest) = (kv.1, kv.2) :: creditorsOf rest := by
          simp [creditorsOf, h1, h2]
        rw [hstep, hstep2, valSum_cons, valSum_cons]
        simp only
        linarith
      · have hz : kv.2 = 0 := by
          rcases hclean kv (List.mem_cons_self _ _) with hz | habs
          · exact hz
          · exfalso
            rw [eps_eq] at h1 h2
            rcases abs_cases kv.2 with ⟨heq, _⟩ | ⟨heq, _⟩ <;>
              rw [heq] at habs <;> linarith
        have hstep : debtorsOf (kv :: rest) = debtorsOf rest := by
          simp [debtorsOf, h1]
        have hstep2 : creditorsOf (kv :: rest) = creditorsOf rest := by
          simp [creditorsOf, h1, h2]
        rw [hstep, hstep2, valSum_cons, hz]
        linarith

theorem keys_debtorsOf_subset {m : KVMap} {k : MemberId}
    (h : k ∈ keys (debtorsOf m)) : k ∈ keys m := by
  obtain ⟨v, hv, _⟩ := mem_keys_debtorsOf h
  have := List.mem_map_of_mem Prod.fst hv
  simpa [keys] using this

theorem keys_creditorsOf_subset {m : KVMap} {k : MemberId}
    (h : k ∈ keys (creditorsOf m)) : k ∈ keys m := by
  obtain ⟨v, hv, _⟩ := mem_keys_creditorsOf h
  have := List.mem_map_of_mem Prod.fst hv
  simpa [keys] using this

theorem keySum_debtorsOf_none {m : KVMap} {k : MemberId}
    (h : lookup k m = none) : keySum (debtorsOf m) k = 0 := by
  refine keySum_eq_zero fun hmem => ?_
  rw [lookup_eq_none_iff] at h
  exact h (keys_debtorsOf_subset hmem)

theorem keySum_creditorsOf_none {m : KVMap} {k : MemberId}
    (h : lookup k m = none) : keySum (creditorsOf m) k = 0 := by
  refine keySum_eq_zero fun hmem => ?_
  rw [lookup_eq_none_iff] at h
  exact h (keys_creditorsOf_subset hmem)

theorem keySum_debtorsOf_some {m : KVMap} (hnd : NodupKeys m)
    {k : MemberId} {v : ℚ} (h : lookup k m = some v) :
    keySum (debtorsOf m) k = if v < -0.01 then |v| else 0 := by
  induction m with
  | nil => simp [lookup] at h
  | cons kv rest ih =>
    obtain ⟨k₁, v₁⟩ := kv
    rw [NodupKeys, keys_cons, List.nodup_cons] at hnd
    by_cases hk : k₁ = k
    · subst hk
      rw [lookup, if_pos rfl, Option.some.injEq] at h
      subst h
      have hnone : lookup k₁ rest = none :=
        (lookup_eq_none_iff rest k₁).mpr hnd.1
      by_cases h1 : v₁ < -0.01
      · have hstep :
            debtorsOf ((k₁, v₁) :: rest) = (k₁, |v₁|) :: debtorsOf rest := by
          simp [debtorsOf, h1]
        rw [hstep, keySum_cons, if_pos rfl, keySum_debtorsOf_none hnone,
          if_pos h1]
        norm_num
      · have hstep : debtorsOf ((k₁, v₁) :: rest) = debtorsOf rest := by
          simp [debtorsOf, h1]
        rw [hstep, keySum_debtorsOf_none hnone, if_neg h1]
    · rw [lookup, if_neg hk] at h
      have ihv := ih hnd.2 h
      by_cases h1 : v₁ < -0.01
      · have hstep :
            debtorsOf ((k₁, v₁) :: rest) = (k₁, |v₁|) :: debtorsOf rest := by
          simp [debtorsOf, h1]
        rw [hstep, keySum_cons, if_neg hk, ihv]
        norm_num
      · have hstep : debtorsOf ((k₁, v₁) :: rest) = debtorsOf rest := by
          simp [debtorsOf, h1]
        rw [hstep, ihv]

theorem keySum_creditorsOf_some {m : KVMap} (hnd : NodupKeys m)
    {k : MemberId} {v : ℚ} (h : lookup k m = some v) :
    keySum (creditorsOf m) k =
      if v < -0.01 then 0 else if 0.01 < v then v else 0 := by
  induction m with
  | nil => simp [lookup] at h
  | cons kv rest ih =>
    obtain ⟨k₁, v₁⟩ := kv
    rw [NodupKeys, keys_cons, List.nodup_cons] at hnd
    by_cases hk : k₁ = k
    · subst hk
      rw [lookup, if_pos rfl, Option.some.injEq] at h
      subst h
      have hnone : lookup k₁ rest = none :=
        (lookup_eq_none_iff rest k₁).mpr hnd.1
      by_cases h1 : v₁ < -0.01
      · have hstep : creditorsOf ((k₁, v₁) :: rest) = creditorsOf rest := by
          simp [creditorsOf, h1]
        rw [hstep, keySum_creditorsOf_none hnone, if_pos h1]
      · by_cases h2 : (0.01 : ℚ) < v₁
        · have hstep :
              creditorsOf ((k₁, v₁) :: rest) =
                (k₁, v₁) :: creditorsOf rest := by
            simp [creditorsOf, h1, h2]
          rw [hstep, keySum_cons, if_pos rfl,
            keySum_creditorsOf_none hnone, if_neg h1, if_pos h2]
          norm_num
        · have hstep : creditorsOf ((k₁, v₁) :: rest) = creditorsOf rest := by
            simp [creditorsOf, h1, h2]
          rw [hstep, keySum_creditorsOf_none hnone, if_neg h1, if_neg h2]
    · rw [lookup, if_neg hk] at h
      have ihv := ih hnd.2 h
      by_cases h1 : v₁ < -0.01
      · have hstep : creditorsOf ((k₁, v₁) :: rest) = creditorsOf rest := by
          simp [creditorsOf, h1]
        rw [hstep, ihv]
      · by_cases h2 : (0.01 : ℚ) < v₁
        · have hstep :
              creditorsOf ((k₁, v₁) :: rest) =
                (k₁, v₁) :: creditorsOf rest := by
            simp [creditorsOf, h1, h2]
          rw [hstep, keySum_cons, if_neg hk, ihv]
          norm_num
        · have hstep :
              creditorsOf ((k₁, v₁) :: rest) = creditorsOf rest := by
            simp [creditorsOf, h1, h2]
          rw [hstep, ihv]

/-- Per-member conservation of the minimizer under the hypotheses that make
the loop exact: all balance amounts are multiples of `0.01` and every
member's net position is either exactly `0` or larger than epsilon in
magnitude.  Then the settled outflow of a member is exactly its net debit
and the settled inflow exactly its net credit. -/
theorem minimize_conserves (balances : List Balance)
    (hcents : ∀ b ∈ balances, isCents b.amount)
    (hclean : ∀ kv ∈ netMapOf balances, kv.2 = 0 ∨ 1/100 < |kv.2|)
    (m : MemberId) :
    outSum (minimizeTransactions balances) m = max 0 (-netOf balances m) ∧
      inSum (minimizeTransactions balances) m = max 0 (netOf balances m) := by
  have hndM : NodupKeys (netMapOf balances) := nodupKeys_netMapOf balances
  have hMcents := netMapOf_cents hcents
  have hpd := sortDesc_perm (debtorsOf (netMapOf balances))
  have hpc := sortDesc_perm (creditorsOf (netMapOf balances))
  have hd : ∀ e ∈ sortDesc (debtorsOf (netMapOf balances)),
      1/100 ≤ e.2 ∧ isCents e.2 := by
    intro e he
    have he' := hpd.mem_iff.mp he
    refine ⟨debtorsOf_amount he', ?_⟩
    obtain ⟨kv, hkv, _, rfl⟩ := mem_debtorsOf he'
    exact isCents_abs (hMcents kv hkv)
  have hc : ∀ e ∈ sortDesc (creditorsOf (netMapOf balances)),
      1/100 ≤ e.2 ∧ isCents e.2 := by
    intro e he
    have he' := hpc.mem_iff.mp he
    refine ⟨creditorsOf_amount he', ?_⟩
    obtain ⟨kv, hkv, _, _, rfl⟩ := mem_creditorsOf he'
    exact hMcents kv hkv
  have hsum : valSum (sortDesc (debtorsOf (netMapOf balances))) =
      valSum (sortDesc (creditorsOf (netMapOf balances))) := by
    rw [valSum_perm hpd, valSum_perm hpc]
    have h1 := debtors_creditors_valSum (netMapOf balances) hclean
    have h2 := valSum_netMapOf balances
    linarith
  have hmt : minimizeTransactions balances =
      settleGo
        ((sortDesc (debtorsOf (netMapOf balances))).length +
          (sortDesc (creditorsOf (netMapOf balances))).length)
        (sortDesc (debtorsOf (netMapOf balances)))
        (sortDesc (creditorsOf (netMapOf balances))) := rfl
  obtain ⟨ho, hi⟩ := settleGo_conserve _ _ _ le_rfl hd hc hsum m
  rw [hmt, ho, hi, keySum_perm hpd, keySum_perm hpc]
  unfold netOf
  cases hl : lookup m (netMapOf balances) with
  | none =>
    rw [keySum_debtorsOf_none hl, keySum_creditorsOf_none hl]
    simp
  | some v =>
    rw [keySum_debtorsOf_some hndM hl, keySum_creditorsOf_some hndM hl]
    simp only [Option.getD_some]
    by_cases h1 : v < -0.01
    · rw [if_pos h1, if_pos h1]
      have hveps : v < 0 := by rw [eps_eq] at h1; linarith
      rw [abs_of_neg hveps]
      constructor
      · rw [max_eq_right (by linarith : (0:ℚ) ≤ -v)]
      · rw [max_eq_left (by linarith : v ≤ (0:ℚ))]
    · by_cases h2 : (0.01 : ℚ) < v
      · rw [if_neg h1, if_neg h1, if_pos h2]
        have hvpos : (0:ℚ) < v := by rw [eps_eq] at h2; linarith
        constructor
        · rw [max_eq_left (by linarith : -v ≤ (0:ℚ))]
        · rw [max_eq_right (by linarith : (0:ℚ) ≤ v)]
      · have hv0 : v = 0 := by
          rcases hclean (m, v) (mem_of_lookup hl) with h | h
          · exact h
          · exfalso
            rw [eps_eq] at h1 h2
            rcases abs_cases v with ⟨heq, _⟩ | ⟨heq, _⟩ <;>
              rw [heq] at h <;> linarith
        subst hv0
        rw [if_neg h1, if_neg h1, if_neg h2]
        simp

theorem idLt_asymm : ∀ (a b : MemberId), idLt a b = true → idLt b a = false
  | _, [] => by intro h; simp [idLt] at h
  | [], _ :: _ => by intro _; simp [idLt]
  | a :: as, b :: bs => by
    intro h
    simp only [idLt] at h ⊢
    by_cases h1 : a.toNat < b.toNat
    · have h2 : ¬b.toNat < a.toNat := by omega
      have h3 : ¬a.toNat = b.toNat := by omega
      simp [h1, h2, h3]
    · by_cases h2 : b.toNat < a.toNat
      · simp [h1, h2] at h
      · have h3 : ¬b.toNat < a.toNat := h2
        simp only [h1, h2, if_neg h1, if_neg h2, if_false] at h ⊢
        exact idLt_asymm as bs h

theorem idLt_total_eq : ∀ (a b : MemberId),
    idLt a b = false → idLt b a = false → a = b
  | [], [] => fun _ _ => rfl
  | [], _ :: _ => by intro h _; simp [idLt] at h
  | _ :: _, [] => by intro _ h; simp [idLt] at h
  | a :: as, b :: bs => by
    intro h1 h2
    simp only [idLt] at h1 h2
    by_cases hab : a.toNat < b.toNat
    · simp [hab] at h1
    · by_cases hba : b.toNat < a.toNat
      · simp [hba] at h2
      · have heq : a.toNat = b.toNat := by omega
        have hchar : a = b := Char.eq_of_val_eq (UInt32.toNat.inj heq)
        simp only [hab, hba, if_neg hab, if_neg hba] at h1 h2
        rw [hchar, idLt_total_eq as bs h1 h2]

theorem splitDash_no_dash {s : List Char} (h : '-' ∉ s) : splitDash s = [s] := by
  induction s with
  | nil => rfl
  | cons c rest ih =>
    rw [List.mem_cons] at h
    push_neg at h
    have hc : ¬c = '-' := fun hh => h.1 hh.symm
    simp [splitDash, hc, ih h.2]

theorem splitDash_append {a : List Char} (h : '-' ∉ a) (r : List Char) :
    splitDash (a ++ '-' :: r) = a :: splitDash r := by
  induction a with
  | nil => simp [splitDash]
  | cons c rest ih =>
    rw [List.mem_cons] at h
    push_neg at h
    have hc : ¬c = '-' := fun hh => h.1 hh.symm
    rw [List.cons_append]
    simp [splitDash, hc, ih h.2]

/-- The canonical ordered pair of a Balance's endpoints (lower id first in
the `idLt` order). -/
def upair (b : Balance) : MemberId × MemberId :=
  if idLt b.«from» b.«to» then (b.«from», b.«to») else (b.«to», b.«from»)

/-- Every accumulation op of the Calculator targets a canonical pair key
`lo-hi` with `hi` not below `lo`, provided no input identifier contains the
separator. -/
theorem calcOps_key_shaped {expenses : List Expense} {payments : List Payment}
    (hexp : ∀ e ∈ expenses,
      '-' ∉ e.paidBy ∧ ∀ mid ∈ e.sharedWith, '-' ∉ mid)
    (hpay : ∀ p ∈ payments, '-' ∉ p.«from» ∧ '-' ∉ p.«to») :
    ∀ op ∈ calcOps expenses payments, ∃ lo hi,
      op.1 = mkKey lo hi ∧ '-' ∉ lo ∧ '-' ∉ hi ∧ idLt hi lo = false := by
  intro op hop
  rw [calcOps, List.mem_append] at hop
  rcases hop with hop | hop
  · rw [List.mem_flatMap] at hop
    obtain ⟨e, he, hop⟩ := hop
    rw [expOps, List.mem_filterMap] at hop
    obtain ⟨mid, hmid, hsome⟩ := hop
    by_cases hm : mid = e.paidBy
    · simp [hm] at hsome
    · rw [if_neg hm, Option.some.injEq] at hsome
      subst hsome
      obtain ⟨hpb, hsw⟩ := hexp e he
      have hmidh : '-' ∉ mid := hsw mid hmid
      unfold expenseOp
      by_cases hlt : idLt mid e.paidBy = true
      · rw [if_pos hlt]
        exact ⟨mid, e.paidBy, rfl, hmidh, hpb, idLt_asymm _ _ hlt⟩
      · have hfalse : idLt mid e.paidBy = false := by
          simp only [Bool.not_eq_true] at hlt
          exact hlt
        rw [if_neg hlt]
        exact ⟨e.paidBy, mid, rfl, hpb, hmidh, hfalse⟩
  · rw [List.mem_map] at hop
    obtain ⟨p, hp, hsome⟩ := hop
    subst hsome
    obtain ⟨hf, ht⟩ := hpay p hp
    unfold payOp
    by_cases hlt : idLt p.«from» p.«to» = true
    · rw [if_pos hlt]
      exact ⟨p.«from», p.«to», rfl, hf, ht, idLt_asymm _ _ hlt⟩
    · have hfalse : idLt p.«from» p.«to» = false := by
        simp only [Bool.not_eq_true] at hlt
        exact hlt
      rw [if_neg hlt]
      exact ⟨p.«to», p.«from», rfl, ht, hf, hfalse⟩

/-- The emitted balance of a canonically-keyed entry has that key's pair as
its unordered endpoint pair. -/
theorem emitBalance_upair {kv : MemberId × ℚ} {b : Balance}
    {lo hi : MemberId} (hk : kv.1 = mkKey lo hi) (hlo : '-' ∉ lo)
    (hhi : '-' ∉ hi) (hcanon : idLt hi lo = false)
    (h : emitBalance kv = some b) : upair b = (lo, hi) := by
  have hparts : splitDash kv.1 = [lo, hi] := by
    rw [hk, mkKey, splitDash_append hlo, splitDash_no_dash hhi]
  unfold emitBalance at h
  by_cases hcond : (0.01 : ℚ) ≤ |round2 kv.2|
  · rw [if_pos hcond] at h
    simp only [hparts] at h
    by_cases hpos : 0 < round2 kv.2
    · rw [if_pos hpos, Option.some.injEq] at h
      subst h
      unfold upair
      dsimp only [List.getD_cons_zero, List.getD_cons_succ]
      by_cases hl : idLt lo hi = true
      · rw [if_pos hl]
      · have hfalse : idLt lo hi = false := by
          simp only [Bool.not_eq_true] at hl
          exact hl
        have hlohi : lo = hi := idLt_total_eq lo hi hfalse hcanon
        rw [if_neg hl, hlohi]
    · rw [if_neg hpos, Option.some.injEq] at h
      subst h
      unfold upair
      dsimp only [List.getD_cons_zero, List.getD_cons_succ]
      rw [if_neg (by rw [hcanon]; exact Bool.false_ne_true : ¬idLt hi lo = true)]
  · rw [if_neg hcond] at h
    exact Option.noConfusion h

/-- Entries with pairwise-distinct canonical keys emit balances with
pairwise-distinct unordered endpoint pairs. -/
theorem pairwise_ne_upair : ∀ {M : KVMap}, NodupKeys M →
    (∀ kv ∈ M, ∃ lo hi,
      kv.1 = mkKey lo hi ∧ '-' ∉ lo ∧ '-' ∉ hi ∧ idLt hi lo = false) →
    (M.filterMap emitBalance).Pairwise fun b₁ b₂ => upair b₁ ≠ upair b₂
  | [], _, _ => List.Pairwise.nil
  | kv :: rest, hnd, hshape => by
    rw [NodupKeys, keys_cons, List.nodup_cons] at hnd
    have ihp := pairwise_ne_upair (M := rest) hnd.2
      (fun x hx => hshape x (List.mem_cons_of_mem _ hx))
    rw [List.filterMap_cons]
    cases hemit : emitBalance kv with
    | none => exact ihp
    | some b =>
      refine List.Pairwise.cons ?_ ihp
      intro b₂ hb₂ heq
      rw [List.mem_filterMap] at hb₂
      obtain ⟨kv₂, hkv₂, hemit₂⟩ := hb₂
      obtain ⟨lo, hi, hk, hlo, hhi, hcanon⟩ :=
        hshape kv (List.mem_cons_self _ _)
      obtain ⟨lo₂, hi₂, hk₂, hlo₂, hhi₂, hcanon₂⟩ :=
        hshape kv₂ (List.mem_cons_of_mem _ hkv₂)
      have hu := emitBalance_upair hk hlo hhi hcanon hemit
      have hu₂ := emitBalance_upair hk₂ hlo₂ hhi₂ hcanon₂ hemit₂
      rw [hu, hu₂] at heq
      obtain ⟨h1, h2⟩ := Prod.mk.injEq .. ▸ heq
      have hkey : kv.1 = kv₂.1 := by
        rw [hk, hk₂, h1, h2]
      have : kv.1 ∈ keys rest := by
        rw [hkey]
        have := List.mem_map_of_mem Prod.fst hkv₂
        simpa [keys] using this
      exact hnd.1 this

end BalanceCalc

namespace BalanceCalc

-- Claims

/-- C7: the Calculator on the single expense `{amount: 30, paidBy: "A",
sharedWith: ["A","B","C"]}` returns exactly the balances `B owes A 10.00` and
`C owes A 10.00`; appending the payment `{from: "B", to: "A", amount: 10}`
leaves exactly `C owes A 10.00`. -/
theorem C7_payment_cancels_debt :
    calculateBalances [⟨30, ['A'], [['A'], ['B'], ['C']]⟩] [] =
        [⟨['B'], ['A'], 10⟩, ⟨['C'], ['A'], 10⟩] ∧
      calculateBalances [⟨30, ['A'], [['A'], ['B'], ['C']]⟩]
          [⟨10, ['B'], ['A']⟩] =
        [⟨['C'], ['A'], 10⟩] := by
  constructor <;> decide

/-- C2, counterexample: a pair total of exactly `0.009` (expense of `0.018`
paid by `"b"` and split between `"b"` and `"a"`) is NOT omitted — it is
rounded up to `0.01` and kept, and the emitted amount `0.01` is not strictly
greater than the epsilon `0.01`. -/
theorem C2_epsilon_counterexample :
    calculateBalances [⟨18/1000, ['b'], [['b'], ['a']]⟩] [] =
        [⟨['a'], ['b'], 1/100⟩] ∧
      ¬(1/100 < |(1 : ℚ)/100|) := by
  constructor <;> decide

/-- C2, amended: every Balance the Calculator emits has an amount that is an
integer multiple of `0.01` (the 2-decimal rounding) and at least `0.01` in
absolute value — at least, not strictly greater than, `0.01`: a pair total
whose rounded value is exactly `0.01` (such as `0.009`, which rounds up) is
kept; `0.011` is also kept (its rounded value is `0.01`). -/
theorem C2_epsilon_amended (expenses : List Expense)
    (payments : List Payment) (b : Balance)
    (hb : b ∈ calculateBalances expenses payments) :
    isCents b.amount ∧ 1/100 ≤ b.amount :=
  mem_calculateBalances_amount hb

/-- Witness for C2, amended, at the `0.011` input of the claim: the pair total
`0.011` is kept, rounded to `0.01`. -/
theorem C2_epsilon_amended_witness :
    (⟨['a'], ['b'], 1/100⟩ : Balance) ∈
        calculateBalances [⟨22/1000, ['b'], [['b'], ['a']]⟩] [] ∧
      isCents (1/100 : ℚ) ∧ (1:ℚ)/100 ≤ 1/100 :=
  ⟨by decide,
    C2_epsilon_amended [⟨22/1000, ['b'], [['b'], ['a']]⟩] [] ⟨['a'], ['b'], 1/100⟩
      (by decide)⟩

/-- C10: every Settlement the Minimizer emits has amount at least `0.01`
(hence strictly positive): members enter the debtor/creditor lists with
magnitude above `0.01`, a pointer is advanced as soon as its remainder drops
below `0.01`, so every transfer is the minimum of two remainders that are
both at least `0.01`, and 2-decimal rounding preserves that bound. -/
theorem C10_settlement_amount_ge_eps (balances : List Balance)
    (s : Settlement) (hs : s ∈ minimizeTransactions balances) :
    1/100 ≤ s.amount := by
  unfold minimizeTransactions at hs
  refine settleGo_amount_ge _ _ _ ?_ ?_ s hs
  · intro e he
    exact debtorsOf_amount ((sortDesc_perm _).mem_iff.mp he)
  · intro e he
    exact creditorsOf_amount ((sortDesc_perm _).mem_iff.mp he)

/-- Witness for C10 at a concrete input. -/
theorem C10_settlement_amount_ge_eps_witness :
    (⟨['a'], ['b'], 5⟩ : Settlement) ∈
        minimizeTransactions [⟨['a'], ['b'], 5⟩] ∧
      (1 : ℚ)/100 ≤ (5 : ℚ) :=
  ⟨by decide,
    C10_settlement_amount_ge_eps [⟨['a'], ['b'], 5⟩] ⟨['a'], ['b'], 5⟩
      (by decide)⟩

/-- C5: no Settlement returned by the Minimizer has `from` equal to `to`:
the `from` endpoint always comes from the debtor list and the `to` endpoint
from the creditor list, and no member is classified as both (the net map has
distinct keys and a single net value cannot be below `-0.01` and above
`0.01` at once). -/
theorem C5_no_self_settlement (balances : List Balance) (s : Settlement)
    (hs : s ∈ minimizeTransactions balances) : s.«from» ≠ s.«to» := by
  unfold minimizeTransactions at hs
  obtain ⟨hf, ht⟩ := settleGo_endpoints _ _ _ s hs
  have hf' : s.«from» ∈ keys (debtorsOf (netMapOf balances)) :=
    (keys_perm_of_perm (sortDesc_perm _)).mem_iff.mp hf
  have ht' : s.«to» ∈ keys (creditorsOf (netMapOf balances)) :=
    (keys_perm_of_perm (sortDesc_perm _)).mem_iff.mp ht
  intro heq
  rw [heq] at hf'
  obtain ⟨v₁, hv₁, hlt₁⟩ := mem_keys_debtorsOf hf'
  obtain ⟨v₂, hv₂, hgt₂⟩ := mem_keys_creditorsOf ht'
  have e₁ := lookup_of_mem_nodup (nodupKeys_netMapOf balances) hv₁
  have e₂ := lookup_of_mem_nodup (nodupKeys_netMapOf balances) hv₂
  rw [e₁, Option.some.injEq] at e₂
  rw [eps_eq] at hlt₁ hgt₂
  rw [← e₂] at hgt₂
  linarith

/-- Witness for C5 at a concrete input. -/
theorem C5_no_self_settlement_witness :
    (⟨['a'], ['b'], 5⟩ : Settlement) ∈
        minimizeTransactions [⟨['a'], ['b'], 5⟩] ∧
      (['a'] : MemberId) ≠ ['b'] :=
  ⟨by decide,
    C5_no_self_settlement [⟨['a'], ['b'], 5⟩] ⟨['a'], ['b'], 5⟩ (by decide)⟩

/-- C3: the number of settlements is at most `max(0, D - 1)` where `D` is the
number of distinct members whose net position (step 1 of the minimizer) is
more than epsilon away from zero: the loop stops when either list is
exhausted and every iteration advances at least one pointer, so at most
`(#debtors - 1) + (#creditors - 1) + 1` iterations run. -/
theorem C3_minimality_bound (balances : List Balance) :
    ((minimizeTransactions balances).length : ℤ) ≤
      max 0 ((nonzeroCount (netMapOf balances) : ℤ) - 1) := by
  have hmt : minimizeTransactions balances =
      settleGo
        ((sortDesc (debtorsOf (netMapOf balances))).length +
          (sortDesc (creditorsOf (netMapOf balances))).length)
        (sortDesc (debtorsOf (netMapOf balances)))
        (sortDesc (creditorsOf (netMapOf balances))) := rfl
  rw [hmt]
  have h := settleGo_length_le
    ((sortDesc (debtorsOf (netMapOf balances))).length +
      (sortDesc (creditorsOf (netMapOf balances))).length)
    (sortDesc (debtorsOf (netMapOf balances)))
    (sortDesc (creditorsOf (netMapOf balances)))
  have hd := (sortDesc_perm (debtorsOf (netMapOf balances))).length_eq
  have hc := (sortDesc_perm (creditorsOf (netMapOf balances))).length_eq
  have hD := debtors_creditors_length (netMapOf balances)
  rcases Nat.eq_zero_or_pos (nonzeroCount (netMapOf balances)) with h0 | h0
  · have hlen :
        (settleGo
          ((sortDesc (debtorsOf (netMapOf balances))).length +
            (sortDesc (creditorsOf (netMapOf balances))).length)
          (sortDesc (debtorsOf (netMapOf balances)))
          (sortDesc (creditorsOf (netMapOf balances)))).length = 0 := by
      omega
    rw [hlen]
    exact le_max_left _ _
  · refine le_max_iff.mpr (Or.inr ?_)
    omega

/-- C9: the two-pointer loop terminates within `debtors.length +
creditors.length` iterations — running it with that iteration budget and an
explicit out-of-fuel signal never hits the signal, because every iteration
advances at least one pointer. -/
theorem C9_loop_terminates (balances : List Balance) :
    minimizeTransactionsOpt balances = some (minimizeTransactions balances) := by
  unfold minimizeTransactionsOpt minimizeTransactions
  exact settleGoOpt_eq _ _ _ le_rfl

/-- C6: the Calculator is order-independent — permuting the expense list and
the payment list yields the same Balance entries (the same list up to
permutation, hence the same set: accumulation into the pair-key map is
commutative, and the surviving keys are the same). -/
theorem C6_order_independence (e₁ e₂ : List Expense) (p₁ p₂ : List Payment)
    (he : e₁.Perm e₂) (hp : p₁.Perm p₂) :
    (calculateBalances e₁ p₁).Perm (calculateBalances e₂ p₂) := by
  rw [calculateBalances_eq, calculateBalances_eq]
  exact (applyOps_nil_perm (calcOps_perm he hp)).filterMap emitBalance

/-- Witness for C6 at a concrete pair of permuted inputs. -/
theorem C6_order_independence_witness :
    ([(⟨20, ['A'], [['A'], ['B']]⟩ : Expense), ⟨30, ['A'], [['A'], ['C']]⟩].Perm
        [⟨30, ['A'], [['A'], ['C']]⟩, ⟨20, ['A'], [['A'], ['B']]⟩]) ∧
      ([(⟨5, ['B'], ['A']⟩ : Payment), ⟨5, ['C'], ['A']⟩].Perm
        [⟨5, ['C'], ['A']⟩, ⟨5, ['B'], ['A']⟩]) ∧
      (calculateBalances [⟨20, ['A'], [['A'], ['B']]⟩, ⟨30, ['A'], [['A'], ['C']]⟩]
          [⟨5, ['B'], ['A']⟩, ⟨5, ['C'], ['A']⟩]).Perm
        (calculateBalances [⟨30, ['A'], [['A'], ['C']]⟩, ⟨20, ['A'], [['A'], ['B']]⟩]
          [⟨5, ['C'], ['A']⟩, ⟨5, ['B'], ['A']⟩]) :=
  ⟨by decide, by decide,
    C6_order_independence _ _ _ _ (by decide) (by decide)⟩

/-- C4, counterexample: for the single input balance `a owes b 0.015` the
minimizer records the settlement `a pays b 0.02` (the transfer `0.015` is
stored rounded by `toFixed(2)`), so the sum of settlement amounts leaving
`a` is `0.02`, not `a`'s net debit `0.015`. -/
theorem C4_conservation_counterexample :
    minimizeTransactions [⟨['a'], ['b'], 3/200⟩] = [⟨['a'], ['b'], 2/100⟩] ∧
      netOf [⟨['a'], ['b'], 3/200⟩] ['a'] = -(3/200) ∧
      outSum (minimizeTransactions [⟨['a'], ['b'], 3/200⟩]) ['a'] ≠ 3/200 := by
  refine ⟨by decide, by decide, by decide⟩

/-- C4, amended: per-member conservation holds exactly whenever every balance
amount is an integer multiple of `0.01` and every member's net position is
either exactly zero or more than epsilon away from zero; then for every
member the sum of settlement amounts with it as `from` equals its net debit
and the sum with it as `to` equals its net credit.  (Without these
hypotheses the recorded 2-decimal rounding, and members dropped by the
epsilon filter, can make the sums differ from the net positions.) -/
theorem C4_per_member_conservation_amended (balances : List Balance)
    (hcents : ∀ b ∈ balances, isCents b.amount)
    (hclean : ∀ kv ∈ netMapOf balances, kv.2 = 0 ∨ 1/100 < |kv.2|)
    (m : MemberId) :
    outSum (minimizeTransactions balances) m = max 0 (-netOf balances m) ∧
      inSum (minimizeTransactions balances) m = max 0 (netOf balances m) :=
  minimize_conserves balances hcents hclean m

/-- Witness for C4, amended, at the input `a owes b 10`. -/
theorem C4_per_member_conservation_amended_witness :
    (∀ kv ∈ netMapOf [⟨['a'], ['b'], (10:ℚ)⟩], kv.2 = 0 ∨ 1/100 < |kv.2|) ∧
      outSum (minimizeTransactions [⟨['a'], ['b'], (10:ℚ)⟩]) ['a'] =
          max 0 (-netOf [⟨['a'], ['b'], (10:ℚ)⟩] ['a']) ∧
        inSum (minimizeTransactions [⟨['a'], ['b'], (10:ℚ)⟩]) ['a'] =
          max 0 (netOf [⟨['a'], ['b'], (10:ℚ)⟩] ['a']) :=
  ⟨by decide,
    (C4_per_member_conservation_amended [⟨['a'], ['b'], (10:ℚ)⟩]
        (by
          intro b hb
          rcases List.mem_singleton.mp hb with rfl
          exact ⟨1000, by norm_num⟩)
        (by decide) ['a']).1,
    (C4_per_member_conservation_amended [⟨['a'], ['b'], (10:ℚ)⟩]
        (by
          intro b hb
          rcases List.mem_singleton.mp hb with rfl
          exact ⟨1000, by norm_num⟩)
        (by decide) ['a']).2⟩

/-- C1, counterexample: for the expenses `B owes A 10` and `C owes B 10`
(nets: `C` must pay `A` 10), the minimizer suggests the single settlement
`C pays A 10`; feeding it back as a payment does NOT drive the pairwise
balances to zero — the Calculator then reports three nonzero pairwise
balances (B still owes A, C still owes B, and A now owes C), because the
minimizer nets per member, not per pair. -/
theorem C1_roundtrip_counterexample :
    calculateBalances
        [⟨20, ['A'], [['A'], ['B']]⟩, ⟨20, ['B'], [['B'], ['C']]⟩]
        (([] : List Payment) ++
          (minimizeTransactions
            (calculateBalances
              [⟨20, ['A'], [['A'], ['B']]⟩, ⟨20, ['B'], [['B'], ['C']]⟩]
              [])).map settlementToPayment) ≠ [] := by
  decide

/-- C1, amended: what the round-trip does guarantee is discharge at the
member level, not the pair level — whenever every member's net position on
the Calculator's output is either exactly zero or more than epsilon from
zero, applying the Minimizer's settlements cancels every member's net
position exactly: `net + outflow - inflow = 0` for every member.  (The
Calculator's amounts are always multiples of `0.01`, so the loop is exact.) -/
theorem C1_roundtrip_amended (expenses : List Expense)
    (payments : List Payment)
    (hclean : ∀ kv ∈ netMapOf (calculateBalances expenses payments),
      kv.2 = 0 ∨ 1/100 < |kv.2|)
    (m : MemberId) :
    netOf (calculateBalances expenses payments) m
        + outSum (minimizeTransactions (calculateBalances expenses payments)) m
        - inSum (minimizeTransactions (calculateBalances expenses payments)) m
      = 0 := by
  have hcents : ∀ b ∈ calculateBalances expenses payments, isCents b.amount :=
    fun b hb => (mem_calculateBalances_amount hb).1
  obtain ⟨ho, hi⟩ := minimize_conserves _ hcents hclean m
  rw [ho, hi]
  rcases le_total (netOf (calculateBalances expenses payments) m) 0 with h | h
  · rw [max_eq_right (by linarith : (0:ℚ) ≤ -netOf (calculateBalances expenses payments) m),
      max_eq_left h]
    ring
  · rw [max_eq_left (by linarith : -netOf (calculateBalances expenses payments) m ≤ (0:ℚ)),
      max_eq_right h]
    ring

/-- Witness for C1, amended, at the scenario-1 input. -/
theorem C1_roundtrip_amended_witness :
    (∀ kv ∈ netMapOf (calculateBalances [⟨30, ['A'], [['A'], ['B'], ['C']]⟩] []),
        kv.2 = 0 ∨ 1/100 < |kv.2|) ∧
      netOf (calculateBalances [⟨30, ['A'], [['A'], ['B'], ['C']]⟩] []) ['B']
          + outSum (minimizeTransactions
              (calculateBalances [⟨30, ['A'], [['A'], ['B'], ['C']]⟩] [])) ['B']
          - inSum (minimizeTransactions
              (calculateBalances [⟨30, ['A'], [['A'], ['B'], ['C']]⟩] [])) ['B']
        = 0 :=
  ⟨by decide,
    C1_roundtrip_amended [⟨30, ['A'], [['A'], ['B'], ['C']]⟩] [] (by decide) ['B']⟩

/-- C8, counterexample: when member identifiers may contain the key
separator `'-'`, distinct unordered pairs can collide into one map key
(`{"a","b-x"}` and `{"a-b","x"}` both key as `"a-b-x"`) and after
`split('-')` the colliding entry is attributed to the pair `{"a","b"}` —
so together with a genuine `{"a","b"}` pair the Calculator emits TWO
Balance entries for the same unordered pair. -/
theorem C8_canonical_pair_counterexample :
    calculateBalances
        [⟨2, ['a'], [['a'], ['b', '-', 'x']]⟩,
         ⟨4, ['x'], [['x'], ['a', '-', 'b']]⟩,
         ⟨2, ['b'], [['b'], ['a']]⟩] [] =
      [⟨['a'], ['b'], 1⟩, ⟨['a'], ['b'], 1⟩] ∧
      ¬(calculateBalances
          [⟨2, ['a'], [['a'], ['b', '-', 'x']]⟩,
           ⟨4, ['x'], [['x'], ['a', '-', 'b']]⟩,
           ⟨2, ['b'], [['b'], ['a']]⟩] []).Pairwise
        (fun b₁ b₂ => upair b₁ ≠ upair b₂) := by
  constructor <;> decide

/-- C8, amended: provided no member identifier contains the separator `'-'`
(true of the application's identifiers), the Calculator's output contains at
most one Balance entry per unordered pair of members: opposite-direction
activity between the same two members accumulates in one canonical pair key
and is emitted as a single directed entry, or omitted when the rounded net
is below epsilon. -/
theorem C8_canonical_pair_amended (expenses : List Expense)
    (payments : List Payment)
    (hexp : ∀ e ∈ expenses,
      '-' ∉ e.paidBy ∧ ∀ mid ∈ e.sharedWith, '-' ∉ mid)
    (hpay : ∀ p ∈ payments, '-' ∉ p.«from» ∧ '-' ∉ p.«to») :
    (calculateBalances expenses payments).Pairwise
      fun b₁ b₂ => upair b₁ ≠ upair b₂ := by
  rw [calculateBalances_eq]
  refine pairwise_ne_upair (nodupKeys_applyOps _ nodupKeys_nil) ?_
  intro kv hkv
  have hk : kv.1 ∈ keys (applyOps [] (calcOps expenses payments)) := by
    have := List.mem_map_of_mem Prod.fst hkv
    simpa [keys] using this
  rcases (mem_keys_applyOps _ _ _).mp hk with hnil | hops
  · simp [keys] at hnil
  · rw [keys, List.mem_map] at hops
    obtain ⟨op, hop, hopk⟩ := hops
    obtain ⟨lo, hi, hkey, hlo, hhi, hcanon⟩ :=
      calcOps_key_shaped hexp hpay op hop
    exact ⟨lo, hi, by rw [← hopk, hkey], hlo, hhi, hcanon⟩

/-- Witness for C8, amended, at the scenario-1 input (no identifier contains
the separator). -/
theorem C8_canonical_pair_amended_witness :
    (∀ e ∈ [(⟨30, ['A'], [['A'], ['B'], ['C']]⟩ : Expense)],
        '-' ∉ e.paidBy ∧ ∀ mid ∈ e.sharedWith, '-' ∉ mid) ∧
      (calculateBalances [⟨30, ['A'], [['A'], ['B'], ['C']]⟩] []).Pairwise
        (fun b₁ b₂ => upair b₁ ≠ upair b₂) :=
  ⟨by decide,
    C8_canonical_pair_amended [⟨30, ['A'], [['A'], ['B'], ['C']]⟩] []
      (by decide) (by decide)⟩

end BalanceCalc
